import Mathlib

set_option maxRecDepth 8000
set_option maxHeartbeats 2000000

/-!
Shallow embedding of the core of the `reversi-engine` repository
(bitboard move generation, evaluator, negamax search, transposition
table, Zobrist hashing, opening book), together with theorems settling
the specification claims.

Machine integers are modelled as `Nat` (for `u64`, with explicit
`% 2 ^ 64` where Rust truncates) and `Int` (for `i32`, with explicit
two's-complement wrapping `wrap32` where Rust release-mode arithmetic
wraps).  Loops are modelled with explicit fuel; every fuel constant is
large enough that the fuel never runs out on 64-bit inputs (each
directional shift is nilpotent after at most eight applications, and a
64-bit word has at most 64 bits to extract).
-/

namespace Reversi

/-- `2 ^ 64`, the modulus of `u64` arithmetic. -/
def U64MOD : Nat := 18446744073709551616

/-- `u64::MAX`. -/
def U64MAX : Nat := 18446744073709551615

/-- `main.rs`: `const NOT_A_FILE: u64 = 0xfefefefefefefefe`. -/
def NOT_A_FILE : Nat := 0xfefefefefefefefe

/-- `main.rs`: `const NOT_H_FILE: u64 = 0x7f7f7f7f7f7f7f7f`. -/
def NOT_H_FILE : Nat := 0x7f7f7f7f7f7f7f7f

/-- `main.rs`: `fn shift_north(x) = x << 8` (u64, truncating). -/
def shift_north (x : Nat) : Nat := (x <<< 8) % U64MOD

/-- `main.rs`: `fn shift_south(x) = x >> 8`. -/
def shift_south (x : Nat) : Nat := x >>> 8

/-- `main.rs`: `fn shift_east(x) = (x & NOT_H_FILE) << 1`. -/
def shift_east (x : Nat) : Nat := ((x &&& NOT_H_FILE) <<< 1) % U64MOD

/-- `main.rs`: `fn shift_west(x) = (x & NOT_A_FILE) >> 1`. -/
def shift_west (x : Nat) : Nat := (x &&& NOT_A_FILE) >>> 1

/-- `main.rs`: `fn shift_ne(x) = (x & NOT_H_FILE) << 9`. -/
def shift_ne (x : Nat) : Nat := ((x &&& NOT_H_FILE) <<< 9) % U64MOD

/-- `main.rs`: `fn shift_nw(x) = (x & NOT_A_FILE) << 7`. -/
def shift_nw (x : Nat) : Nat := ((x &&& NOT_A_FILE) <<< 7) % U64MOD

/-- `main.rs`: `fn shift_se(x) = (x & NOT_H_FILE) >> 7`. -/
def shift_se (x : Nat) : Nat := (x &&& NOT_H_FILE) >>> 7

/-- `main.rs`: `fn shift_sw(x) = (x & NOT_A_FILE) >> 9`. -/
def shift_sw (x : Nat) : Nat := (x &&& NOT_A_FILE) >>> 9

/-- One direction block of `compute_moves`: six growing shift-AND steps
through `opp` followed by a final shift landing on `empty`. -/
def dir_moves (shift : Nat → Nat) (me opp empty : Nat) : Nat :=
  let mask := shift me &&& opp
  let mask := mask ||| (shift mask &&& opp)
  let mask := mask ||| (shift mask &&& opp)
  let mask := mask ||| (shift mask &&& opp)
  let mask := mask ||| (shift mask &&& opp)
  let mask := mask ||| (shift mask &&& opp)
  shift mask &&& empty

/-- `main.rs`: `fn compute_moves(me, opp) -> u64`.  The eight direction
blocks are the literal unrolled shift chains of the source, factored
through `dir_moves` (each source block is exactly one `dir_moves`
unfolding). -/
def compute_moves (me opp : Nat) : Nat :=
  let empty := U64MAX ^^^ (me ||| opp)
  dir_moves shift_north me opp empty |||
  dir_moves shift_south me opp empty |||
  dir_moves shift_east me opp empty |||
  dir_moves shift_west me opp empty |||
  dir_moves shift_ne me opp empty |||
  dir_moves shift_nw me opp empty |||
  dir_moves shift_se me opp empty |||
  dir_moves shift_sw me opp empty

/-- The `while (mask & opp) != 0` walk of `main.rs::flip_in_dir`,
with explicit fuel (the loop runs at most eight times on 64-bit
inputs: every directional shift is nilpotent). -/
def flipWalk (shift : Nat → Nat) (me opp : Nat) : Nat → Nat → Nat → Nat
  | 0, _, _ => 0
  | fuel + 1, mask, flipped =>
    if mask &&& opp ≠ 0 then
      flipWalk shift me opp fuel (shift mask) (flipped ||| mask)
    else if mask &&& me ≠ 0 then flipped else 0

/-- `main.rs`: `fn flip_in_dir(move_bit, me, opp, shift) -> u64`. -/
def flip_in_dir (move_bit me opp : Nat) (shift : Nat → Nat) : Nat :=
  flipWalk shift me opp 64 (shift move_bit) 0

/-- The two failure kinds of move application (`"Square already
occupied"` and `"No flips!"` / `"Invalid move, no discs flipped"`). -/
inductive MoveError where
  | Occupied : MoveError
  | NoFlips : MoveError
deriving DecidableEq, Repr

/-- The eight-direction flip mask computed inside
`main.rs::apply_move_opt` (the chain of `flip_mask |=` statements). -/
def flip_mask_opt (move_bit me opp : Nat) : Nat :=
  flip_in_dir move_bit me opp shift_north |||
  flip_in_dir move_bit me opp shift_south |||
  flip_in_dir move_bit me opp shift_east |||
  flip_in_dir move_bit me opp shift_west |||
  flip_in_dir move_bit me opp shift_ne |||
  flip_in_dir move_bit me opp shift_nw |||
  flip_in_dir move_bit me opp shift_se |||
  flip_in_dir move_bit me opp shift_sw

/-- `main.rs`: `pub fn apply_move_opt(white, black, move_bit, is_white_move)
-> Result<(u64, u64), &str>` (bit-parallel variant). -/
def apply_move_opt (white black move_bit : Nat) (is_white_move : Bool) :
    Except MoveError (Nat × Nat) :=
  let occupied := white ||| black
  if move_bit &&& occupied ≠ 0 then .error .Occupied
  else
    let me := if is_white_move then white else black
    let opp := if is_white_move then black else white
    let flip_mask := flip_mask_opt move_bit me opp
    if flip_mask = 0 then .error .NoFlips
    else
      let new_me := me ||| move_bit ||| flip_mask
      let new_opp := opp &&& (U64MAX ^^^ flip_mask)
      if is_white_move then .ok (new_me, new_opp) else .ok (new_opp, new_me)

/-- The per-direction coordinate scan of `main.rs::apply_move`: walk
from `(x, y)` in direction `(dx, dy)` while on the board, accumulating
opponent discs, committing them when a friendly disc terminates the
run.  Fuel bounds the walk (at most eight steps stay on the board). -/
def scanDir (player opponent : Nat) (dx dy : Int) :
    Nat → Int → Int → Nat → Bool → Nat
  | 0, _, _, _, _ => 0
  | fuel + 1, x, y, current_flips, found_opponent =>
    if 0 ≤ x ∧ x < 8 ∧ 0 ≤ y ∧ y < 8 then
      let index := (y * 8 + x).toNat
      let bit := (1 <<< index : Nat)
      if opponent &&& bit ≠ 0 then
        scanDir player opponent dx dy fuel (x + dx) (y + dy)
          (current_flips ||| bit) true
      else if player &&& bit ≠ 0 then
        if found_opponent then current_flips else 0
      else 0
    else 0

/-- The eight compass directions of `main.rs::apply_move`
(`DIRECTIONS`), in source order. -/
def DIRECTIONS : List (Int × Int) :=
  [(-1, -1), (-1, 0), (-1, 1), (0, -1), (0, 1), (1, -1), (1, 0), (1, 1)]

/-- `u64::trailing_zeros`, by fuelled halving (returns 64 on input 0). -/
def tzAux : Nat → Nat → Nat
  | 0, _ => 0
  | fuel + 1, x => if x % 2 = 1 then 0 else 1 + tzAux fuel (x / 2)

/-- `move_bit.trailing_zeros()` for a `u64`. -/
def trailing_zeros (x : Nat) : Nat := if x = 0 then 64 else tzAux 64 x

/-- The flip mask accumulated over all eight directions by
`main.rs::apply_move` (the `for &(dx, dy) in DIRECTIONS` loop). -/
def flips_scan (player opponent move_bit : Nat) : Nat :=
  DIRECTIONS.foldl
    (fun flips d =>
      flips |||
        scanDir player opponent d.1 d.2 64
          ((trailing_zeros move_bit % 8 : Nat) + d.1)
          ((trailing_zeros move_bit / 8 : Nat) + d.2) 0 false)
    0

/-- `main.rs`: `fn apply_move(white, black, move_bit, is_white_move)`
(direction-scan variant; the board printing is side-effect only). -/
def apply_move (white black move_bit : Nat) (is_white_move : Bool) :
    Except MoveError (Nat × Nat) :=
  let player := if is_white_move then white else black
  let opponent := if is_white_move then black else white
  if (player ||| opponent) &&& move_bit ≠ 0 then .error .Occupied
  else
    let flips := flips_scan player opponent move_bit
    if flips = 0 then .error .NoFlips
    else
      let player' := player ||| move_bit ||| flips
      let opponent' := opponent &&& (U64MAX ^^^ flips)
      if is_white_move then .ok (player', opponent') else .ok (opponent', player')

/-- `utils.rs`: `pub fn apply_move_verbose` — identical logic to
`main.rs::apply_move` (it differs only in board printing). -/
def apply_move_verbose (white black move_bit : Nat) (is_white_move : Bool) :
    Except MoveError (Nat × Nat) :=
  apply_move white black move_bit is_white_move

/-- `fn lowest_set_bit(x) = x & x.wrapping_neg()` (u64 wrapping
negation is `(2^64 - x) % 2^64`). -/
def lowest_set_bit (x : Nat) : Nat := x &&& ((U64MOD - x) % U64MOD)

/-- The `while tmp != 0` bit-extraction loop of
`find_legal_moves_alt`, with fuel (at most 64 bits). -/
def bitsLoop : Nat → Nat → List Nat
  | 0, _ => []
  | fuel + 1, tmp =>
    if tmp = 0 then []
    else
      let bit := lowest_set_bit tmp
      bit :: bitsLoop fuel (tmp &&& (U64MAX ^^^ bit))

/-- `engine.rs` / `main.rs`: `pub fn find_legal_moves_alt(white, black,
is_white_to_move) -> Vec<u64>`. -/
def find_legal_moves_alt (white black : Nat) (is_white_to_move : Bool) :
    List Nat :=
  let me := if is_white_to_move then white else black
  let opp := if is_white_to_move then black else white
  bitsLoop 64 (compute_moves me opp)

/-- `u64::count_ones` (inputs are below `2 ^ 64`). -/
def count_ones (x : Nat) : Nat :=
  (List.range 64).foldl (fun acc i => acc + (if x.testBit i then 1 else 0)) 0

/-- `main.rs`: `fn check_game_status_alt(white, black, is_white_move) ->
u64`: a legal-move mask, `u64::MAX` (pass), `u64::MAX - 2` (white
wins), `u64::MAX - 1` (black wins) or `u64::MAX - 3` (draw). -/
def check_game_status_alt (white black : Nat) (is_white_move : Bool) : Nat :=
  let me := if is_white_move then white else black
  let opp := if is_white_move then black else white
  let my_moves := compute_moves me opp
  if my_moves > 0 then my_moves
  else
    let opp_moves := compute_moves opp me
    if opp_moves > 0 then U64MAX
    else
      let white_count := count_ones white
      let black_count := count_ones black
      if white_count > black_count then U64MAX - 2
      else if black_count > white_count then U64MAX - 1
      else U64MAX - 3

/-- Modelled from the spec: `reversi_tools::position::check_game_status`
(used by `engine.rs`) is not part of this repository's sources; spec
§4.2 specifies it as: return the side-to-move's legal-move mask if
non-zero, else `ALL_ONES` if the opponent has moves (pass), else
compare popcounts (`ALL_ONES - 1` black wins, `ALL_ONES - 2` white
wins, `ALL_ONES - 3` draw) — exactly the logic of the in-repository
`check_game_status_alt`. -/
def check_game_status (white black : Nat) (is_white_move : Bool) : Nat :=
  check_game_status_alt white black is_white_move

/-- Modelled from the spec: `reversi_tools::position::apply_move` (used
by `engine.rs`) is not part of this repository's sources; spec §4.1
specifies it as: reject an occupied target, take the union of
`flip_in_dir` over the eight directions, fail on an empty flip mask,
else merge the move and flips — exactly the logic of the in-repository
`apply_move_opt`. -/
def rt_apply_move (white black move_bit : Nat) (is_white_move : Bool) :
    Except MoveError (Nat × Nat) :=
  apply_move_opt white black move_bit is_white_move

/-- Two's-complement wrapping of Rust `i32` release-mode arithmetic. -/
def wrap32 (x : Int) : Int := (x + 2147483648) % 4294967296 - 2147483648

/-- `i32::MIN`. -/
def IMIN : Int := -2147483648

/-- `engine.rs`: `pub struct EvalCfg`. -/
structure EvalCfg where
  corner_value : Int
  edge_value : Int
  antiedge_value : Int
  anticorner_value : Int
deriving DecidableEq, Repr

/-- `engine.rs`: `pub static DEFAULT_CFG`. -/
def DEFAULT_CFG : EvalCfg :=
  { corner_value := 70, edge_value := 17, antiedge_value := -22,
    anticorner_value := -34 }

/-- `const CORNER_MASK: u64 = 0x8100000000000081`. -/
def CORNER_MASK : Nat := 0x8100000000000081

/-- `const EDGE_MASK: u64 = 0x42C300000000C342`. -/
def EDGE_MASK : Nat := 0x42C300000000C342

/-- `const ANTIEDGE_MASK: u64 = 4792111478498951490`. -/
def ANTIEDGE_MASK : Nat := 4792111478498951490

/-- `const ANTICORNER_MASK: u64 = 18577348462920192`. -/
def ANTICORNER_MASK : Nat := 18577348462920192

/-- The per-side score of `engine.rs::eval_position_with_cfg` (the
`white_score` / `black_score` expression, which is the same formula
applied to either board), with every `i32` operation wrapping. -/
def side_score (board : Nat) (cfg : EvalCfg) : Int :=
  wrap32 (wrap32 (wrap32 (wrap32 (wrap32 ((count_ones (board &&& CORNER_MASK) : Int) * cfg.corner_value) +
    wrap32 ((count_ones (board &&& EDGE_MASK) : Int) * cfg.edge_value)) +
    (count_ones board : Int)) +
    wrap32 ((count_ones (board &&& ANTIEDGE_MASK) : Int) * cfg.antiedge_value)) +
    wrap32 ((count_ones (board &&& ANTICORNER_MASK) : Int) * cfg.anticorner_value))

/-- `engine.rs`: `pub fn eval_position_with_cfg(white, black, eval_cfg)
-> i32` = `black_score - white_score`. -/
def eval_position_with_cfg (white black : Nat) (eval_cfg : EvalCfg) : Int :=
  wrap32 (side_score black eval_cfg - side_score white eval_cfg)

/-- The per-side score of the legacy `main.rs::eval_position`
(weights corner 10, edge 5, disc 1). -/
def m_side_score (board : Nat) : Int :=
  wrap32 (wrap32 (wrap32 ((count_ones (board &&& CORNER_MASK) : Int) * 10) +
    wrap32 ((count_ones (board &&& EDGE_MASK) : Int) * 5)) +
    (count_ones board : Int))

/-- `main.rs`: `fn eval_position(white, black) -> i32`. -/
def eval_position (white black : Nat) : Int :=
  wrap32 (m_side_score black - m_side_score white)

/-- The mutable state of the candidate loop of
`engine.rs::search_moves_opt`: the best seen so far, the locally
tightened bounds, and — modelling the early `return` on a cutoff — an
optional finished result. -/
structure LoopSt where
  finished : Option (Nat × Int)
  best_move : Nat
  best_eval : Int
  best_orig_eval : Int
  local_alpha : Int
  local_beta : Int
deriving DecidableEq, Repr

/-- One iteration of the candidate loop of
`engine.rs::search_moves_opt`, for a given child evaluator. -/
def opt_step (child : Nat → Nat → Bool → Nat → Int → Int → Nat × Int)
    (white black : Nat) (is_white_move : Bool) (depth : Nat) (cfg : EvalCfg)
    (st : LoopSt) (candidate : Nat) : LoopSt :=
  if st.finished.isSome then st
  else
    match rt_apply_move white black candidate is_white_move with
    | .error _ => st
    | .ok (next_white, next_black) =>
      let step2 : Int → LoopSt := fun orig0 =>
        let orig_eval : Int :=
          if orig0 > 5000 then wrap32 (orig0 - 1)
          else if orig0 < -5000 then wrap32 (orig0 + 1) else orig0
        let eval : Int :=
          if is_white_move then wrap32 (-1 * orig_eval) else orig_eval
        if eval > st.best_eval then
          if is_white_move then
            if orig_eval < st.local_alpha then
              { st with finished := some (candidate, orig_eval) }
            else
              { st with best_move := candidate, best_eval := eval,
                        best_orig_eval := orig_eval, local_beta := orig_eval }
          else
            if orig_eval > st.local_beta then
              { st with finished := some (candidate, orig_eval) }
            else
              { st with best_move := candidate, best_eval := eval,
                        best_orig_eval := orig_eval, local_alpha := orig_eval }
        else st
      if depth = 0 then
        step2 (eval_position_with_cfg next_white next_black cfg)
      else
        let r := child next_white next_black (!is_white_move) (depth - 1)
                   st.local_alpha st.local_beta
        if r.1 = 0 then st else step2 r.2

/-- The move-class-ordered candidate list of
`engine.rs::search_moves_opt`: corners first, then plain edges, then
quiet interior squares, then X/C squares, each class low-bit-first
(the source clears the lowest bit of the four class masks in that
priority order, which visits exactly this sequence). -/
def orderedCandidates (outcome : Nat) : List Nat :=
  bitsLoop 64 (outcome &&& CORNER_MASK) ++
  bitsLoop 64 (outcome &&& EDGE_MASK &&& (U64MAX ^^^ ANTIEDGE_MASK)) ++
  bitsLoop 64 (outcome &&& (U64MAX ^^^ (CORNER_MASK ||| EDGE_MASK ||| ANTIEDGE_MASK ||| ANTICORNER_MASK))) ++
  bitsLoop 64 (outcome &&& (ANTIEDGE_MASK ||| ANTICORNER_MASK))

/-- `engine.rs`: `pub fn search_moves_opt(white, black, is_white_move,
depth, alpha, beta, orig_depth, cfg) -> (u64, i32)`, with explicit
fuel (first argument) bounding the total recursion depth; fuel 0
returns the out-of-fuel artifact `(0, 0)`, never reached when the fuel
exceeds the number of plies explored.  The source's second
`outcome == u64::MAX - 3` branch is dead (the same condition is
tested earlier in the chain) and is omitted. -/
def search_moves_opt :
    Nat → Nat → Nat → Bool → Nat → Int → Int → Nat → EvalCfg → Nat × Int
  | 0 => fun _ _ _ _ _ _ _ _ => (0, 0)
  | fuel + 1 => fun white black is_white_move depth alpha beta orig_depth cfg =>
    let outcome := check_game_status white black is_white_move
    if outcome = U64MAX - 2 then (U64MAX, -10000)
    else if outcome = U64MAX - 1 then (U64MAX, 10000)
    else if outcome = U64MAX - 3 then (U64MAX, 0)
    else if outcome = U64MAX then
      (U64MAX,
        (search_moves_opt fuel white black (!is_white_move) depth alpha beta
          orig_depth cfg).2)
    else if depth = 0 then (U64MAX, eval_position_with_cfg white black cfg)
    else
      let init : LoopSt :=
        { finished := none, best_move := U64MAX, best_eval := IMIN,
          best_orig_eval := 0, local_alpha := alpha, local_beta := beta }
      let final := (orderedCandidates outcome).foldl
        (opt_step
          (fun w b s d la lb => search_moves_opt fuel w b s d la lb orig_depth cfg)
          white black is_white_move depth cfg)
        init
      match final.finished with
      | some r => r
      | none => (final.best_move, final.best_orig_eval)

/-- The reduction operator of the rayon `reduce` in
`engine.rs::search_moves_par`: keep the incoming triple exactly when
its (sign-normalised) eval strictly exceeds the accumulator's and its
candidate is non-zero. -/
def reduceOp (acc x : Nat × Int × Int) : Nat × Int × Int :=
  if x.2.1 > acc.2.1 ∧ x.1 ≠ 0 then x else acc

/-- The identity element supplied to the rayon `reduce`. -/
def reduceInit : Nat × Int × Int := (0, IMIN, IMIN)

/-- The per-candidate map closure of `engine.rs::search_moves_par`,
parameterised by the sequential and parallel child evaluators. -/
def par_map_child
    (optChild parChild : Nat → Nat → Bool → Nat → Int → Int → Nat × Int)
    (white black : Nat) (is_white_move : Bool) (depth : Nat)
    (alpha beta : Int) (orig_depth : Nat) (cfg : EvalCfg)
    (candidate : Nat) : Nat × Int × Int :=
  match rt_apply_move white black candidate is_white_move with
  | .error _ => (0, 0, 0)
  | .ok (next_white, next_black) =>
    if depth = 0 then
      let orig_eval := eval_position_with_cfg next_white next_black cfg
      let eval := if is_white_move then wrap32 (-orig_eval) else orig_eval
      (candidate, eval, orig_eval)
    else if orig_depth - depth > 0 then
      let r := optChild next_white next_black (!is_white_move) (depth - 1)
                 alpha beta
      let eval := if is_white_move then wrap32 (-r.2) else r.2
      (candidate, eval, r.2)
    else
      let r := parChild next_white next_black (!is_white_move) (depth - 1)
                 alpha beta
      let orig_eval :=
        if r.2 > 5000 then wrap32 (r.2 - 1)
        else if r.2 < -5000 then wrap32 (r.2 + 1) else r.2
      let eval := if is_white_move then wrap32 (-orig_eval) else orig_eval
      (candidate, eval, orig_eval)

/-- `engine.rs`: `pub fn search_moves_par(white, black, is_white_move,
depth, alpha, beta, orig_depth, cfg) -> (u64, i32)` ("WARNING: NO
PRUNING GOING ON!"), with explicit fuel.  The rayon map-reduce is
embedded with its canonical sequential semantics: map in candidate
order, then a left fold of the reduction operator seeded with the
reduce identity (the parenthesisation independence of this choice is
the subject of a separate theorem). -/
def search_moves_par :
    Nat → Nat → Nat → Bool → Nat → Int → Int → Nat → EvalCfg → Nat × Int
  | 0 => fun _ _ _ _ _ _ _ _ => (0, 0)
  | fuel + 1 => fun white black is_white_move depth alpha beta orig_depth cfg =>
    let outcome := check_game_status white black is_white_move
    if outcome = U64MAX - 2 then (U64MAX, -10000)
    else if outcome = U64MAX - 1 then (U64MAX, 10000)
    else if outcome = U64MAX - 3 then (U64MAX, 0)
    else if depth = 0 then (U64MAX, eval_position_with_cfg white black cfg)
    else
      let possible_moves := find_legal_moves_alt white black is_white_move
      if possible_moves.length = 0 ∧ outcome = U64MAX then
        if depth = orig_depth then
          (U64MAX, eval_position_with_cfg white black cfg)
        else if depth > 0 then
          (U64MAX,
            (search_moves_opt fuel white black (!is_white_move) (depth - 1)
              alpha beta orig_depth cfg).2)
        else
          (U64MAX,
            (search_moves_opt fuel white black (!is_white_move) depth
              alpha beta orig_depth cfg).2)
      else
        let mapped := possible_moves.map
          (par_map_child
            (fun w b s d la lb => search_moves_opt fuel w b s d la lb orig_depth cfg)
            (fun w b s d la lb => search_moves_par fuel w b s d la lb orig_depth cfg)
            white black is_white_move depth alpha beta orig_depth cfg)
        let r := mapped.foldl reduceOp reduceInit
        (r.1, r.2.2)

/-- The root map list of `engine.rs::search_moves_par` (the rayon
`into_par_iter().map(...)` output in candidate order), named so that
reduction-order theorems can speak about it. -/
def rootMapped (fuel : Nat) (white black : Nat) (is_white_move : Bool)
    (depth : Nat) (alpha beta : Int) (orig_depth : Nat) (cfg : EvalCfg) :
    List (Nat × Int × Int) :=
  (find_legal_moves_alt white black is_white_move).map
    (par_map_child
      (fun w b s d la lb => search_moves_opt fuel w b s d la lb orig_depth cfg)
      (fun w b s d la lb => search_moves_par fuel w b s d la lb orig_depth cfg)
      white black is_white_move depth alpha beta orig_depth cfg)

/-- The candidate loop state of the legacy `main.rs::search_moves_opt`
(identical shape; its initial best move is 0, not `u64::MAX`). -/
def m_opt_step (child : Nat → Nat → Bool → Nat → Int → Int → Nat × Int)
    (white black : Nat) (is_white_move : Bool) (depth : Nat)
    (st : LoopSt) (candidate : Nat) : LoopSt :=
  if st.finished.isSome then st
  else
    match apply_move_opt white black candidate is_white_move with
    | .error _ => st
    | .ok (next_white, next_black) =>
      let step2 : Int → LoopSt := fun orig0 =>
        let orig_eval : Int :=
          if orig0 > 500 then wrap32 (orig0 - 1)
          else if orig0 < -500 then wrap32 (orig0 + 1) else orig0
        let eval : Int :=
          if is_white_move then wrap32 (-1 * orig_eval) else orig_eval
        if eval > st.best_eval then
          if is_white_move then
            if orig_eval < st.local_alpha then
              { st with finished := some (candidate, orig_eval) }
            else
              { st with best_move := candidate, best_eval := eval,
                        best_orig_eval := orig_eval, local_beta := orig_eval }
          else
            if orig_eval > st.local_beta then
              { st with finished := some (candidate, orig_eval) }
            else
              { st with best_move := candidate, best_eval := eval,
                        best_orig_eval := orig_eval, local_alpha := orig_eval }
        else st
      if depth = 0 then
        step2 (eval_position next_white next_black)
      else
        let r := child next_white next_black (!is_white_move) (depth - 1)
                   st.local_alpha st.local_beta
        if r.1 = 0 then st else step2 r.2

/-- `main.rs`: `fn search_moves_opt(...)` (legacy sequential search:
terminal scores ±1000, mate-compression threshold 500, plain
low-bit-first candidate order, initial best move 0), with fuel.  Its
second `outcome == u64::MAX - 3` branch is dead and omitted. -/
def m_search_moves_opt :
    Nat → Nat → Nat → Bool → Nat → Int → Int → Nat → Nat × Int
  | 0 => fun _ _ _ _ _ _ _ => (0, 0)
  | fuel + 1 => fun white black is_white_move depth alpha beta orig_depth =>
    let outcome := check_game_status_alt white black is_white_move
    if outcome = U64MAX - 2 then (U64MAX, -1000)
    else if outcome = U64MAX - 1 then (U64MAX, 1000)
    else if outcome = U64MAX - 3 then (U64MAX, 0)
    else if outcome = U64MAX then
      m_search_moves_opt fuel white black (!is_white_move) depth alpha beta
        orig_depth
    else
      let init : LoopSt :=
        { finished := none, best_move := 0, best_eval := IMIN,
          best_orig_eval := 0, local_alpha := alpha, local_beta := beta }
      let final := (bitsLoop 64 outcome).foldl
        (m_opt_step
          (fun w b s d la lb => m_search_moves_opt fuel w b s d la lb orig_depth)
          white black is_white_move depth)
        init
      match final.finished with
      | some r => r
      | none => (final.best_move, final.best_orig_eval)

/-- `zobrist.rs`: `pub enum TTFlag`. -/
inductive TTFlag where
  | Exact : TTFlag
  | AlphaBound : TTFlag
  | BetaBound : TTFlag
  | NotFound : TTFlag
deriving DecidableEq, Repr

/-- `zobrist.rs`: `pub struct TTEntry`. -/
structure TTEntry where
  key : Nat
  flag : TTFlag
  value : Int
  best_move : Nat
deriving DecidableEq, Repr

/-- `impl Default for TTEntry`. -/
def defaultTTEntry : TTEntry :=
  { key := 0, flag := .NotFound, value := 0, best_move := 0 }

/-- `zobrist.rs`: `pub struct TranspositionTable`. -/
structure TranspositionTable where
  entries : List TTEntry
  size : Nat

/-- `zobrist.rs`: `fn find_index(hash, size) = (hash & (1 << size) - 1)`. -/
def find_index (hash : Nat) (size : Nat) : Nat :=
  hash &&& ((1 <<< size) - 1)

/-- `zobrist.rs`: `TranspositionTable::insert_position` — always
overwrites the indexed slot. -/
def TranspositionTable.insert_position (t : TranspositionTable)
    (hash : Nat) (eval : Int) (kind : TTFlag) (mv : Nat) :
    TranspositionTable :=
  { t with
    entries := t.entries.set (find_index hash t.size)
      { key := hash, flag := kind, value := eval, best_move := mv } }

/-- `zobrist.rs`: `TranspositionTable::probe`. -/
def TranspositionTable.probe (t : TranspositionTable) (hash : Nat)
    (alpha beta : Int) : Int × Nat :=
  let index := find_index hash t.size
  let entry := t.entries.getD index defaultTTEntry
  if entry.key ≠ hash then (-163840, 0)
  else
    match entry.flag with
    | .NotFound => (-163840, 0)
    | .Exact => (entry.value, entry.best_move)
    | .AlphaBound =>
      if entry.value ≥ beta then (entry.value, entry.best_move)
      else (-163840, 0)
    | .BetaBound =>
      if entry.value ≤ alpha then (entry.value, entry.best_move)
      else (-163840, 0)

/-- `zobrist.rs`: `TranspositionTable::new(size)`. -/
def TranspositionTable.new (size : Nat) : TranspositionTable :=
  { entries := List.replicate (1 <<< size) defaultTTEntry, size := size }

/-- Modelled from the spec: `reversi_tools::position::RichPosition`
(used by `zobrist.rs`) is not part of this repository's sources; per
the spec's §4.5 hashing interface it carries the two bitmaps, the side
to move, the played square and the flipped mask. -/
structure RichPosition where
  white : Nat
  black : Nat
  white_to_move : Bool
  last_move : Nat
  flips : Nat
deriving DecidableEq, Repr

/-- `zobrist.rs`: `pub fn compute_zobrist_hash(pos) -> u64`.  The
process-wide random table `ZOBRIST_TABLE` (64 cells × 2 colors,
generated by an external seeded RNG whose values are outside this
repository) is abstracted as the parameter `Z : cell → color → u64`;
index 0 is "white on the square", index 1 "black". -/
def compute_zobrist_hash (Z : Nat → Nat → Nat) (pos : RichPosition) : Nat :=
  (List.range 64).foldl
    (fun hash cell =>
      let mask := (1 <<< cell : Nat)
      if pos.white &&& mask ≠ 0 then hash ^^^ Z cell 0
      else if pos.black &&& mask ≠ 0 then hash ^^^ Z cell 1
      else hash)
    0

/-- The `while flipped != 0` loop of `zobrist.rs::update_zobrist_hash`,
with fuel: XOR the mover's color entry of each flipped square. -/
def updateFlipsLoop (Z : Nat → Nat → Nat) (color : Nat) :
    Nat → Nat → Nat → Nat
  | 0, _, new_hash => new_hash
  | fuel + 1, flipped, new_hash =>
    if flipped ≠ 0 then
      let tmp := lowest_set_bit flipped
      updateFlipsLoop Z color fuel (flipped &&& (U64MAX ^^^ tmp))
        (new_hash ^^^ Z (trailing_zeros tmp) color)
    else new_hash

/-- `zobrist.rs`: `pub fn update_zobrist_hash(pos, hash) -> u64`, with
the random table abstracted as `Z` (as in `compute_zobrist_hash`). -/
def update_zobrist_hash (Z : Nat → Nat → Nat) (pos : RichPosition)
    (hash : Nat) : Nat :=
  let color : Nat := if pos.white_to_move then 0 else 1
  let new_hash := hash ^^^ Z (trailing_zeros pos.last_move) color
  updateFlipsLoop Z color 64 pos.flips new_hash

/-- `openingbook.rs`: `pub struct Position`. -/
structure Position where
  black : Nat
  white : Nat
  white_to_move : Bool
deriving DecidableEq, Repr

/-- `openingbook.rs`: `OpeningBook` — the `HashMap<Position, BookEntry>`
is modelled as a finite-support lookup function; a `BookEntry` is its
ordered `suggested_moves` list. -/
def OpeningBook : Type := Position → Option (List Nat)

/-- `OpeningBook::default()`. -/
def OpeningBook.empty : OpeningBook := fun _ => none

/-- `openingbook.rs`: `OpeningBook::get`. -/
def OpeningBook.get (book : OpeningBook) (pos : Position) :
    Option (List Nat) :=
  book pos

/-- `openingbook.rs`: `OpeningBook::insert_position` — append the move
to the entry when absent (`and_modify`), create a singleton entry
otherwise (`or_insert_with`). -/
def OpeningBook.insert_position (book : OpeningBook) (pos : Position)
    (move_mask : Nat) : OpeningBook :=
  fun p =>
    if p = pos then
      match book pos with
      | some entry =>
        some (if move_mask ∈ entry then entry else entry ++ [move_mask])
      | none => some [move_mask]
    else book p

/-- `openingbook.rs`: `fn rotate90(b)` — bit `(row, col)` maps to
`col * 8 + (7 - row)`. -/
def rotate90 (b : Nat) : Nat :=
  (List.range 8).foldl
    (fun rotated row =>
      (List.range 8).foldl
        (fun rotated col =>
          let from_index := row * 8 + col
          let to_index := col * 8 + (7 - row)
          if (b >>> from_index) &&& 1 = 1 then rotated ||| (1 <<< to_index)
          else rotated)
        rotated)
    0

/-- `openingbook.rs`: `fn flip_vertical(x)` — swap ranks. -/
def flip_vertical (x : Nat) : Nat :=
  (List.range 8).foldl
    (fun result row =>
      let row_bits := (x >>> (8 * row)) &&& 0xFF
      result ||| (row_bits <<< (8 * (7 - row))))
    0

/-- `openingbook.rs`: `fn reverse_byte(b)` (u8 arithmetic; the first
left shift truncates to 8 bits). -/
def reverse_byte (b : Nat) : Nat :=
  let b := ((b <<< 4) % 256) ||| (b >>> 4)
  let b := ((b &&& 0xCC) >>> 2) ||| ((b &&& 0x33) <<< 2)
  let b := ((b &&& 0xAA) >>> 1) ||| ((b &&& 0x55) <<< 1)
  b

/-- `openingbook.rs`: `fn flip_horizontal(x)` — per-byte bit
reversal. -/
def flip_horizontal (x : Nat) : Nat :=
  (List.range 8).foldl
    (fun result row =>
      let row_bits := (x >>> (8 * row)) &&& 0xFF
      result ||| (reverse_byte row_bits <<< (8 * row)))
    0

/-- `openingbook.rs`: `pub fn rotate_position_90`. -/
def rotate_position_90 (pos : Position) : Position :=
  { black := rotate90 pos.black, white := rotate90 pos.white,
    white_to_move := pos.white_to_move }

/-- `openingbook.rs`: `fn rotate_move_90`. -/
def rotate_move_90 (m : Nat) : Nat := rotate90 m

/-- `openingbook.rs`: `pub fn flip_position_vertical`. -/
def flip_position_vertical (pos : Position) : Position :=
  { black := flip_vertical pos.black, white := flip_vertical pos.white,
    white_to_move := pos.white_to_move }

/-- `openingbook.rs`: `pub fn flip_position_horizontal`. -/
def flip_position_horizontal (pos : Position) : Position :=
  { black := flip_horizontal pos.black, white := flip_horizontal pos.white,
    white_to_move := pos.white_to_move }

/-- `openingbook.rs`: `fn flip_move_vertical`. -/
def flip_move_vertical (m : Nat) : Nat := flip_vertical m

/-- `openingbook.rs`: `fn flip_move_horizontal`. -/
def flip_move_horizontal (m : Nat) : Nat := flip_horizontal m

/-- `openingbook.rs`: `OpeningBook::insert_all_rotations` — the
`for _ in 0..4` loop rotating the (position, move) pair and inserting
it together with its vertical and horizontal flips. -/
def OpeningBook.insert_all_rotations (book : OpeningBook) (pos : Position)
    (move_mask : Nat) : OpeningBook :=
  ((List.range 4).foldl
    (fun (st : OpeningBook × Position × Nat) _ =>
      let bk := st.1.insert_position st.2.1 st.2.2
      let p := rotate_position_90 st.2.1
      let m := rotate_move_90 st.2.2
      let bk := bk.insert_position (flip_position_vertical p)
        (flip_move_vertical m)
      let bk := bk.insert_position (flip_position_horizontal p)
        (flip_move_horizontal m)
      (bk, p, m))
    (book, pos, move_mask)).1

/-- Probe usability condition of a transposition entry against bounds
`(alpha, beta)`, read off the `match` in `TranspositionTable::probe`:
`Exact` always, `AlphaBound` (the lower-bound flag) when
`value ≥ beta`, `BetaBound` (the upper-bound flag) when
`value ≤ alpha`, `NotFound` never. -/
def tt_usable (entry : TTEntry) (alpha beta : Int) : Bool :=
  match entry.flag with
  | .Exact => true
  | .AlphaBound => entry.value ≥ beta
  | .BetaBound => entry.value ≤ alpha
  | .NotFound => false

/-- The engine's sequential search as run in a process whose
transposition-table state is `t`: `engine.rs::search_moves_opt`
mentions no transposition table (its signature has no table parameter
and its body calls neither `probe` nor `insert_position`), so the
lifted semantics ignores `t`. -/
def search_moves_opt_with_table (_t : TranspositionTable) (fuel : Nat)
    (white black : Nat) (is_white_move : Bool) (depth : Nat)
    (alpha beta : Int) (orig_depth : Nat) (cfg : EvalCfg) : Nat × Int :=
  search_moves_opt fuel white black is_white_move depth alpha beta
    orig_depth cfg

/-- Square index of board coordinates (`x` = file, `y` = rank). -/
def posIdx (x y : Int) : Nat := (y * 8 + x).toNat

/-- The ray of square indices starting at `(x, y)` and stepping by
`(dx, dy)` while on the board (specification-side helper bridging the
shift walks and the coordinate scans). -/
def rayFrom (dx dy : Int) : Nat → Int → Int → List Nat
  | 0, _, _ => []
  | fuel + 1, x, y =>
    if 0 ≤ x ∧ x < 8 ∧ 0 ≤ y ∧ y < 8 then
      posIdx x y :: rayFrom dx dy fuel (x + dx) (y + dy)
    else []

/-- Reference flip walk along a list of squares: accumulate opponent
discs, commit on a friendly disc, yield nothing on an empty square or
the end of the ray. -/
def rayFlips (me opp : Nat) : List Nat → Nat → Nat
  | [], _ => 0
  | s :: rest, acc =>
    if opp.testBit s then rayFlips me opp rest (acc ||| 2 ^ s)
    else if me.testBit s then acc else 0

/-- A work split of a rayon `map ... reduce(identity, op)` computation:
leaves are contiguous chunks folded sequentially from the identity,
inner nodes join the two sub-results with the reduction operator.  Any
rayon schedule of the reduction is one such tree over a partition of
the mapped list. -/
inductive RTree (α : Type) where
  | leaf : List α → RTree α
  | node : RTree α → RTree α → RTree α

/-- The mapped list a reduction tree covers, in order. -/
def RTree.flatten {α : Type} : RTree α → List α
  | .leaf l => l
  | .node a b => a.flatten ++ b.flatten

/-- Value of a reduction tree under operator `op` and identity `idv`. -/
def RTree.evalTree {α : Type} (op : α → α → α) (idv : α) : RTree α → α
  | .leaf l => l.foldl op idv
  | .node a b => op (a.evalTree op idv) (b.evalTree op idv)

/-- Elements reachable in the root reduction: either a real candidate
(non-zero move bit, sign-normalised eval no smaller than `i32::MIN`)
or the reduce identity. -/
def goodElem (x : Nat × Int × Int) : Prop :=
  IMIN ≤ x.2.1 ∧ (x.1 = 0 → x = reduceInit)

/-- `n`-fold application of the quarter rotation to a position. -/
def rotNPos : Nat → Position → Position
  | 0, p => p
  | n + 1, p => rotate_position_90 (rotNPos n p)

/-- `n`-fold application of the quarter rotation to a move mask. -/
def rotNMove : Nat → Nat → Nat
  | 0, m => m
  | n + 1, m => rotate_move_90 (rotNMove n m)

/-- The board-coordinate bound of `rayFrom` and the scans. -/
abbrev inB (x y : Int) : Prop := 0 ≤ x ∧ x < 8 ∧ 0 ≤ y ∧ y < 8

/-- The six-step frontier-growing mask chain of one `compute_moves`
direction block: `chainMask 0 = shift me & opp`, and each further step
ORs in one more shift through `opp` (specification-side bridge; the
source block is its literal unfolding). -/
def chainMask (shift : Nat → Nat) (me opp : Nat) : Nat → Nat
  | 0 => shift me &&& opp
  | i + 1 =>
    chainMask shift me opp i ||| (shift (chainMask shift me opp i) &&& opp)

/-- A capture run of length at most `j` starting at `(x, y)` and
stepping by `(ddx, ddy)`: the current square holds an opponent disc
and the run continues until a friendly disc (specification-side
predicate used to connect move generation with flip computation). -/
def RunS (me opp : Nat) (ddx ddy : Int) : Nat → Int → Int → Prop
  | 0, _, _ => False
  | j + 1, x, y =>
    inB x y ∧ opp.testBit (posIdx x y) = true ∧ inB (x + ddx) (y + ddy) ∧
      (me.testBit (posIdx (x + ddx) (y + ddy)) = true ∨
        RunS me opp ddx ddy j (x + ddx) (y + ddy))

/-- The standard Othello starting position as an opening-book key
(black d5, e4; white d4, e5; black to move). -/
def startPos : Position :=
  { black := 0x0000000810000000, white := 0x0000001008000000,
    white_to_move := false }

/-- Index action of `rotate90` read backwards: target bit `i` of the
rotated board comes from source bit `rotIdx i`. -/
def rotIdx (i : Nat) : Nat := (7 - i % 8) * 8 + i / 8

/-- A concrete Zobrist table used to witness hash theorems (the real
process table consists of seeded random values external to the
repository; any table with a non-zero entry at the relevant square
exhibits the same behaviour). -/
def zWitness (cell color : Nat) : Nat := cell * 2 + color + 1

/-- The standard Othello starting position, black to move
(`black = 0x0000000810000000`, `white = 0x0000001008000000`). -/
def startRich : RichPosition :=
  { white := 0x0000001008000000, black := 0x0000000810000000,
    white_to_move := false, last_move := 0, flips := 0 }

/-- The position after black's opening move d3 (square 19, flipping
d4 = square 27), carrying the played square and flip mask, with
`white_to_move` recording the mover's color for the incremental hash
update (the update reads the field to choose the color index). -/
def afterD3 : RichPosition :=
  { white := 0x0000001000000000, black := 0x0000000818080000,
    white_to_move := false, last_move := 2 ^ 19, flips := 2 ^ 27 }

end Reversi

deriving instance DecidableEq for Except

namespace Reversi

/-! ## Claim C5: transposition-table probe and insert semantics -/

theorem tt_index_lt (hash size : Nat) : find_index hash size < 2 ^ size := by
  have h1 : find_index hash size ≤ (1 <<< size) - 1 := Nat.and_le_right
  have h2 : (1 <<< size : Nat) = 2 ^ size := by
    rw [Nat.shiftLeft_eq, one_mul]
  have h3 := Nat.two_pow_pos size
  omega

/-- C5.  `TranspositionTable::probe` returns the stored
`(value, best_move)` exactly under the claim's usability condition
(slot key matches the hash, and the flag is `Exact`, or the
lower-bound flag `AlphaBound` with `value ≥ beta`, or the upper-bound
flag `BetaBound` with `value ≤ alpha`); in every other case it returns
the sentinel `(-163840, 0)`.  `insert_position` unconditionally
overwrites the indexed slot, which lies in range for a well-formed
table (`entries.length = 2 ^ size`, as built by
`TranspositionTable::new`). -/
theorem c5_probe_insert_spec (t : TranspositionTable) (hash : Nat)
    (alpha beta eval : Int) (kind : TTFlag) (mv : Nat)
    (hlen : t.entries.length = 2 ^ t.size) :
    (t.probe hash alpha beta =
      (let entry := t.entries.getD (find_index hash t.size) defaultTTEntry
       if entry.key = hash ∧ tt_usable entry alpha beta = true then
         (entry.value, entry.best_move)
       else (-163840, 0))) ∧
    find_index hash t.size < t.entries.length ∧
    (t.insert_position hash eval kind mv).entries =
      t.entries.set (find_index hash t.size)
        { key := hash, flag := kind, value := eval, best_move := mv } := by
  refine ⟨?_, by rw [hlen]; exact tt_index_lt hash t.size, rfl⟩
  show TranspositionTable.probe t hash alpha beta = _
  simp only [TranspositionTable.probe]
  generalize t.entries.getD (find_index hash t.size) defaultTTEntry = e
  obtain ⟨key, flag, value, best⟩ := e
  cases flag <;> simp [tt_usable] <;> split_ifs <;> simp_all

/-- C5 witness: a concrete well-formed table with one inserted exact
entry, probed at its own hash and at a colliding key. -/
theorem c5_witness :
    ((TranspositionTable.new 4).entries.length = 2 ^ 4) ∧
    ((TranspositionTable.new 4).insert_position 37 12345 .Exact 2 |>.probe
        37 (-2000) 2000) =
      (let entry :=
        (((TranspositionTable.new 4).insert_position 37 12345 .Exact 2).entries.getD
          (find_index 37 4) defaultTTEntry)
       if entry.key = 37 ∧ tt_usable entry (-2000) 2000 = true then
         (entry.value, entry.best_move)
       else (-163840, 0)) := by
  refine ⟨by decide, ?_⟩
  exact (c5_probe_insert_spec
    ((TranspositionTable.new 4).insert_position 37 12345 .Exact 2)
    37 (-2000) 2000 0 .Exact 0 (by decide)).1

/-! ## Claim C6: `apply_move_opt` behaviour and concrete triples -/

/-- C6.  `apply_move_opt` fails with `Occupied` when the move bit
intersects the occupied squares; when unoccupied and the computed
eight-direction flip mask is zero it fails with `NoFlips`; otherwise
it returns `me' = me | move | flips`, `opp' = opp & !flips` (reordered
into `(white, black)`).  On the concrete boards
`white = 35253361508352`, `black = 171935537184` and white to move:
c4 (square 26) yields `(35253562834944, 171801319456)`, a1 (square 0)
fails with `NoFlips`, a3 (square 16) fails with `Occupied`. -/
theorem c6_apply_move_opt_spec :
    (∀ (white black move_bit : Nat) (s : Bool),
      move_bit &&& (white ||| black) ≠ 0 →
      apply_move_opt white black move_bit s = .error .Occupied) ∧
    (∀ (white black move_bit : Nat) (s : Bool),
      move_bit &&& (white ||| black) = 0 →
      flip_mask_opt move_bit (if s then white else black)
        (if s then black else white) = 0 →
      apply_move_opt white black move_bit s = .error .NoFlips) ∧
    (∀ (white black move_bit : Nat) (s : Bool) (fm : Nat),
      move_bit &&& (white ||| black) = 0 →
      fm = flip_mask_opt move_bit (if s then white else black)
        (if s then black else white) →
      fm ≠ 0 →
      apply_move_opt white black move_bit s =
        (let me := if s then white else black
         let opp := if s then black else white
         if s then
           .ok (me ||| move_bit ||| fm, opp &&& (U64MAX ^^^ fm))
         else
           .ok (opp &&& (U64MAX ^^^ fm), me ||| move_bit ||| fm))) ∧
    apply_move_opt 35253361508352 171935537184 (2 ^ 26) true =
      .ok (35253562834944, 171801319456) ∧
    apply_move_opt 35253361508352 171935537184 (2 ^ 0) true =
      .error .NoFlips ∧
    apply_move_opt 35253361508352 171935537184 (2 ^ 16) true =
      .error .Occupied := by
  refine ⟨?_, ?_, ?_, by decide, by decide, by decide⟩
  · intro white black move_bit s hocc
    simp [apply_move_opt, hocc]
  · intro white black move_bit s hocc hflip
    cases s <;> simp_all [apply_move_opt]
  · intro white black move_bit s fm hocc hfm hne
    subst hfm
    cases s <;> simp_all [apply_move_opt]

/-- C6 witness: the universally quantified clauses applied at the
claim's concrete inputs. -/
theorem c6_witness :
    apply_move_opt 35253361508352 171935537184 (2 ^ 16) true =
      .error .Occupied ∧
    apply_move_opt 35253361508352 171935537184 (2 ^ 0) true =
      .error .NoFlips ∧
    apply_move_opt 35253361508352 171935537184 (2 ^ 26) true =
      .ok ((if true then 35253361508352 else 171935537184) ||| 2 ^ 26 |||
             flip_mask_opt (2 ^ 26) 35253361508352 171935537184,
           171935537184 &&&
             (U64MAX ^^^ flip_mask_opt (2 ^ 26) 35253361508352 171935537184)) := by
  refine ⟨c6_apply_move_opt_spec.1 _ _ _ _ (by decide),
    c6_apply_move_opt_spec.2.1 _ _ _ _ (by decide) (by decide), ?_⟩
  have h := c6_apply_move_opt_spec.2.2.1 35253361508352 171935537184
    (2 ^ 26) true (flip_mask_opt (2 ^ 26) 35253361508352 171935537184)
    (by decide) rfl (by decide)
  simpa using h

/-! ## Bit-level helper lemmas -/

theorem U64MAX_testBit (j : Nat) :
    Nat.testBit U64MAX j = decide (j < 64) := by
  have h : U64MAX = 2 ^ 64 - 1 := by decide
  rw [h]
  exact Nat.testBit_two_pow_sub_one 64 j

theorem testBit_lt64 {x j : Nat} (hx : x < 2 ^ 64)
    (h : Nat.testBit x j = true) : j < 64 := by
  by_contra hj
  have h2 : x < 2 ^ j :=
    lt_of_lt_of_le hx (Nat.pow_le_pow_right (by omega) (by omega))
  rw [Nat.testBit_lt_two_pow h2] at h
  exact Bool.false_ne_true h

theorem or_eq_zero {a b : Nat} (h : a ||| b = 0) : a = 0 ∧ b = 0 := by
  constructor <;> apply Nat.eq_of_testBit_eq <;> intro j <;>
    have hj := congrArg (Nat.testBit · j) h <;>
    simp only [Nat.testBit_or, Nat.zero_testBit, Bool.or_eq_false_iff] at hj <;>
    simp [hj.1, hj.2]

/-- Legal moves land on empty squares: the computed move mask is
disjoint from the occupied squares. -/
theorem compute_moves_land_occupied (me opp : Nat) (hme : me < 2 ^ 64)
    (hopp : opp < 2 ^ 64) : compute_moves me opp &&& (me ||| opp) = 0 := by
  apply Nat.eq_of_testBit_eq
  intro j
  rw [Nat.zero_testBit, Nat.testBit_and]
  by_cases hx : (me ||| opp).testBit j
  · have hj : j < 64 := by
      have hx2 := hx
      simp only [Nat.testBit_or, Bool.or_eq_true] at hx2
      rcases hx2 with h | h
      · exact testBit_lt64 hme h
      · exact testBit_lt64 hopp h
    have hempty : (U64MAX ^^^ (me ||| opp)).testBit j = false := by
      simp [Nat.testBit_xor, U64MAX_testBit, hj, hx]
    simp only [compute_moves, dir_moves, Nat.testBit_or, Nat.testBit_and,
      hempty, Bool.and_false, Bool.or_false, Bool.false_or, Bool.false_and]
  · have hxf : (me ||| opp).testBit j = false := by simpa using hx
    rw [hxf, Bool.and_false]

/-- If the status classifier reports a pass or a terminal result, the
side to move has no legal moves. -/
theorem status_pass_no_my_moves (w b : Nat) (s : Bool) (hw : w < 2 ^ 64)
    (hb : b < 2 ^ 64) (h : check_game_status_alt w b s = U64MAX) :
    compute_moves (if s then w else b) (if s then b else w) = 0 := by
  set me := if s then w else b with hmedef
  set opp := if s then b else w with hoppdef
  have hme : me < 2 ^ 64 := by cases s <;> simp [hmedef] <;> assumption
  have hopp : opp < 2 ^ 64 := by cases s <;> simp [hoppdef] <;> assumption
  unfold check_game_status_alt at h
  rw [← hmedef, ← hoppdef] at h
  by_cases hmm : compute_moves me opp > 0
  · rw [if_pos hmm] at h
    exfalso
    have hland := compute_moves_land_occupied me opp hme hopp
    rw [h] at hland
    have horx : me ||| opp < 2 ^ 64 := Nat.or_lt_two_pow hme hopp
    have hself : U64MAX &&& (me ||| opp) = me ||| opp := by
      have h2 : U64MAX = 2 ^ 64 - 1 := by decide
      rw [h2, Nat.and_comm]
      exact Nat.and_pow_two_sub_one_of_lt_two_pow horx
    rw [hself] at hland
    obtain ⟨hme0, hopp0⟩ := or_eq_zero hland
    rw [hme0, hopp0] at h
    have : compute_moves 0 0 = 0 := by decide
    rw [this] at h
    exact absurd h.symm (by decide)
  · omega

/-! ## Claim C2: terminal scores are black-perspective -/

/-- C2 counterexample: on the terminal position
`white = 14260085270048145407`, `black = 67108864` with **white to
move**, white (the side to move) has won, yet the search returns
`(ALL_ONES, -10000)` — not the `+10000` the claim requires for a
winning side to move. -/
theorem c2_counterexample :
    check_game_status 14260085270048145407 67108864 true = U64MAX - 2 ∧
    count_ones 67108864 < count_ones 14260085270048145407 ∧
    search_moves_opt 6 14260085270048145407 67108864 true 2 (-2000) 2000 2
      DEFAULT_CFG = (U64MAX, -10000) ∧
    search_moves_par 6 14260085270048145407 67108864 true 2 (-2000) 2000 2
      DEFAULT_CFG = (U64MAX, -10000) ∧
    ((-10000 : Int) ≠ 10000) :=
  ⟨by decide, by decide, by decide, by decide, by decide⟩

/-- C2 amended.  On a terminal status the engine searches return
`(ALL_ONES, -10000)` when **black** has lost (status `ALL_ONES - 2`,
white wins), `(ALL_ONES, +10000)` when black has won (status
`ALL_ONES - 1`), and `(ALL_ONES, 0)` on a draw — the score is
black-perspective, independent of the side to move; the legacy
`main.rs` sequential search behaves identically with `±1000`. -/
theorem c2_terminal_black_perspective (fuel w b : Nat) (s : Bool)
    (depth : Nat) (alpha beta : Int) (od : Nat) (cfg : EvalCfg) :
    (check_game_status w b s = U64MAX - 2 →
      search_moves_opt (fuel + 1) w b s depth alpha beta od cfg =
        (U64MAX, -10000) ∧
      search_moves_par (fuel + 1) w b s depth alpha beta od cfg =
        (U64MAX, -10000) ∧
      m_search_moves_opt (fuel + 1) w b s depth alpha beta od =
        (U64MAX, -1000)) ∧
    (check_game_status w b s = U64MAX - 1 →
      search_moves_opt (fuel + 1) w b s depth alpha beta od cfg =
        (U64MAX, 10000) ∧
      search_moves_par (fuel + 1) w b s depth alpha beta od cfg =
        (U64MAX, 10000) ∧
      m_search_moves_opt (fuel + 1) w b s depth alpha beta od =
        (U64MAX, 1000)) ∧
    (check_game_status w b s = U64MAX - 3 →
      search_moves_opt (fuel + 1) w b s depth alpha beta od cfg =
        (U64MAX, 0) ∧
      search_moves_par (fuel + 1) w b s depth alpha beta od cfg =
        (U64MAX, 0) ∧
      m_search_moves_opt (fuel + 1) w b s depth alpha beta od =
        (U64MAX, 0)) := by
  refine ⟨fun h => ?_, fun h => ?_, fun h => ?_⟩ <;>
  · have h' : check_game_status_alt w b s = _ := h
    refine ⟨?_, ?_, ?_⟩ <;>
      simp [search_moves_opt, search_moves_par, m_search_moves_opt,
        check_game_status, h', U64MAX]

/-- C2 witness: the amended theorem applied on concrete terminal
positions in all three cases. -/
theorem c2_witness :
    search_moves_opt 4 14260085270048145407 67108864 true 2 (-2000) 2000 2
      DEFAULT_CFG = (U64MAX, -10000) ∧
    search_moves_par 4 67108864 14260085270048145407 false 2 (-2000) 2000 2
      DEFAULT_CFG = (U64MAX, 10000) ∧
    m_search_moves_opt 4 4294967295 18446744069414584320 true 2 (-2000)
      2000 2 = (U64MAX, 0) :=
  ⟨((c2_terminal_black_perspective 3 14260085270048145407 67108864 true 2
      (-2000) 2000 2 DEFAULT_CFG).1 (by decide)).1,
   ((c2_terminal_black_perspective 3 67108864 14260085270048145407 false 2
      (-2000) 2000 2 DEFAULT_CFG).2.1 (by decide)).2.1,
   ((c2_terminal_black_perspective 3 4294967295 18446744069414584320 true 2
      (-2000) 2000 2 DEFAULT_CFG).2.2 (by decide)).2.2⟩

/-! ## Claim C3: pass handling -/

/-- C3 counterexample: on the pass position `white = 5`, `black = 2`
with white to move (white has no legal move, black does), the
root-parallel search at `depth = orig_depth = 1` returns the static
evaluation `-76`, not the claimed same-depth child evaluation `-73`:
the parallel variant does not recurse at the same depth on a pass. -/
theorem c3_counterexample :
    check_game_status 5 2 true = U64MAX ∧
    search_moves_par 6 5 2 true 1 (-2000) 2000 1 DEFAULT_CFG =
      (U64MAX, -76) ∧
    (search_moves_opt 6 5 2 false 1 (-2000) 2000 1 DEFAULT_CFG).2 = -73 ∧
    search_moves_par 6 5 2 true 1 (-2000) 2000 1 DEFAULT_CFG ≠
      (U64MAX, (search_moves_opt 6 5 2 false 1 (-2000) 2000 1
        DEFAULT_CFG).2) :=
  ⟨by decide, by decide, by decide, by decide⟩

/-- C3 amended.  On a pass, the sequential engine search recurses with
the side flipped and the **same** depth and returns `(ALL_ONES,
child eval)` (the legacy `main.rs` sequential search also keeps the
depth but returns the child's full pair, move included); the parallel
variant instead returns the static evaluation at the root and
otherwise delegates to the sequential search at depth **decremented by
one**. -/
theorem c3_pass_behavior (fuel w b : Nat) (s : Bool) (depth : Nat)
    (alpha beta : Int) (od : Nat) (cfg : EvalCfg)
    (h : check_game_status w b s = U64MAX) :
    (search_moves_opt (fuel + 1) w b s depth alpha beta od cfg =
      (U64MAX, (search_moves_opt fuel w b (!s) depth alpha beta od cfg).2)) ∧
    (m_search_moves_opt (fuel + 1) w b s depth alpha beta od =
      m_search_moves_opt fuel w b (!s) depth alpha beta od) ∧
    (w < 2 ^ 64 → b < 2 ^ 64 → depth ≠ 0 → depth = od →
      search_moves_par (fuel + 1) w b s depth alpha beta od cfg =
        (U64MAX, eval_position_with_cfg w b cfg)) ∧
    (w < 2 ^ 64 → b < 2 ^ 64 → depth ≠ 0 → depth ≠ od →
      search_moves_par (fuel + 1) w b s depth alpha beta od cfg =
        (U64MAX,
          (search_moves_opt fuel w b (!s) (depth - 1) alpha beta od
            cfg).2)) := by
  have h' : check_game_status_alt w b s = U64MAX := h
  refine ⟨?_, ?_, fun hw hb hd he => ?_, fun hw hb hd hne => ?_⟩
  · simp [search_moves_opt, check_game_status, h', U64MAX]
  · simp [m_search_moves_opt, h', U64MAX]
  · have hno := status_pass_no_my_moves w b s hw hb h'
    have hempty : find_legal_moves_alt w b s = [] := by
      simp only [find_legal_moves_alt]
      rw [hno]
      decide
    simp [search_moves_par, check_game_status, h', hempty, hd, he, U64MAX]
  · have hno := status_pass_no_my_moves w b s hw hb h'
    have hempty : find_legal_moves_alt w b s = [] := by
      simp only [find_legal_moves_alt]
      rw [hno]
      decide
    simp [search_moves_par, check_game_status, h', hempty, hd, hne, U64MAX,
      Nat.pos_of_ne_zero hd]

/-- C3 witness: the amended theorem applied on the concrete pass
position (`white = 5`, `black = 2`, white to move). -/
theorem c3_witness :
    (search_moves_opt 6 5 2 true 1 (-2000) 2000 1 DEFAULT_CFG =
      (U64MAX, (search_moves_opt 5 5 2 false 1 (-2000) 2000 1
        DEFAULT_CFG).2)) ∧
    (m_search_moves_opt 6 5 2 true 1 (-2000) 2000 1 =
      m_search_moves_opt 5 5 2 false 1 (-2000) 2000 1) ∧
    (search_moves_par 6 5 2 true 1 (-2000) 2000 1 DEFAULT_CFG =
      (U64MAX, eval_position_with_cfg 5 2 DEFAULT_CFG)) ∧
    (search_moves_par 6 5 2 true 1 (-2000) 2000 2 DEFAULT_CFG =
      (U64MAX, (search_moves_opt 5 5 2 false 0 (-2000) 2000 2
        DEFAULT_CFG).2)) :=
  ⟨(c3_pass_behavior 5 5 2 true 1 (-2000) 2000 1 DEFAULT_CFG (by decide)).1,
   (c3_pass_behavior 5 5 2 true 1 (-2000) 2000 1 DEFAULT_CFG (by decide)).2.1,
   (c3_pass_behavior 5 5 2 true 1 (-2000) 2000 1 DEFAULT_CFG
     (by decide)).2.2.1 (by decide) (by decide) (by decide) rfl,
   (c3_pass_behavior 5 5 2 true 1 (-2000) 2000 2 DEFAULT_CFG
     (by decide)).2.2.2 (by decide) (by decide) (by decide) (by decide)⟩

/-! ## Claim C4: no transposition-table integration in the search -/

/-- C4.  `engine.rs::search_moves_opt` performs no transposition-table
operation at all: its lifted semantics is invariant under any table
state, and a usable `Exact` entry (here value 12345 with best move
bit 0, probed successfully) is not returned by the search, which
yields its table-independent result (move d3 = bit 19, eval 3, at the
starting position with depth 1). -/
theorem c4_search_ignores_table :
    (∀ (t1 t2 : TranspositionTable) (fuel w b : Nat) (s : Bool)
       (depth : Nat) (alpha beta : Int) (od : Nat) (cfg : EvalCfg),
      search_moves_opt_with_table t1 fuel w b s depth alpha beta od cfg =
      search_moves_opt_with_table t2 fuel w b s depth alpha beta od cfg) ∧
    ((TranspositionTable.new 4).insert_position 0 12345 .Exact 1).probe 0
      (-2000) 2000 = (12345, 1) ∧
    search_moves_opt_with_table
      ((TranspositionTable.new 4).insert_position 0 12345 .Exact 1) 4
      0x0000001008000000 0x0000000810000000 false 1 (-2000) 2000 1
      DEFAULT_CFG = (524288, 3) ∧
    ((524288 : Nat), (3 : Int)) ≠ ((1 : Nat), (12345 : Int)) :=
  ⟨fun _ _ _ _ _ _ _ _ _ _ _ => rfl, by decide, by decide, by decide⟩

/-! ## Claim C1: incremental Zobrist update vs full recomputation -/

/-- C1.  The incremental update is wrong: after black's opening move
d3 (square 19) flipping d4 (square 27), `update_zobrist_hash` XORs
only the mover's color entry of the flipped square and never removes
the opponent's entry `Z 27 0` (white on d4), so it differs from
`compute_zobrist_hash` of the resulting position whenever that table
entry is non-zero — which holds for random 64-bit table values. -/
theorem c1_update_zobrist_mismatch (Z : Nat → Nat → Nat)
    (hZ : Z 27 0 ≠ 0) :
    update_zobrist_hash Z afterD3 (compute_zobrist_hash Z startRich) ≠
      compute_zobrist_hash Z afterD3 := by
  have hpre : compute_zobrist_hash Z startRich =
      (((0 ^^^ Z 27 0) ^^^ Z 28 1) ^^^ Z 35 1) ^^^ Z 36 0 := rfl
  have hpost : compute_zobrist_hash Z afterD3 =
      ((((0 ^^^ Z 19 1) ^^^ Z 27 1) ^^^ Z 28 1) ^^^ Z 35 1) ^^^ Z 36 0 := rfl
  have hupd : update_zobrist_hash Z afterD3 (compute_zobrist_hash Z startRich)
      = ((compute_zobrist_hash Z startRich ^^^ Z 19 1) ^^^ Z 27 1) := rfl
  rw [hupd, hpre, hpost]
  intro heq
  apply hZ
  have hlcomm : ∀ a b c : Nat, a ^^^ (b ^^^ c) = b ^^^ (a ^^^ c) := by
    intro a b c
    rw [← Nat.xor_assoc, Nat.xor_comm a b, Nat.xor_assoc]
  have hX : (((((0 ^^^ Z 27 0) ^^^ Z 28 1) ^^^ Z 35 1) ^^^ Z 36 0) ^^^
        Z 19 1) ^^^ Z 27 1 =
      Z 27 0 ^^^
        (((((0 ^^^ Z 19 1) ^^^ Z 27 1) ^^^ Z 28 1) ^^^ Z 35 1) ^^^
          Z 36 0) := by
    simp only [Nat.zero_xor]
    simp [Nat.xor_assoc, Nat.xor_comm, hlcomm]
  rw [hX] at heq
  have h2 := congrArg
    (fun v => v ^^^
      (((((0 ^^^ Z 19 1) ^^^ Z 27 1) ^^^ Z 28 1) ^^^ Z 35 1) ^^^ Z 36 0))
    heq
  simpa [Nat.xor_assoc, Nat.xor_self, Nat.xor_zero] using h2

/-- C1 witness: a concrete table with `Z 27 0 = 55 ≠ 0` exhibits the
mismatch. -/
theorem c1_witness :
    zWitness 27 0 ≠ 0 ∧
    update_zobrist_hash zWitness afterD3
      (compute_zobrist_hash zWitness startRich) ≠
      compute_zobrist_hash zWitness afterD3 :=
  ⟨by decide, c1_update_zobrist_mismatch zWitness (by decide)⟩

/-! ## Claim C10: evaluator color antisymmetry -/

theorem wrap32_add_neg (u : Int) :
    (wrap32 u + wrap32 (-u)) % 4294967296 = 0 := by
  unfold wrap32
  omega

theorem wrap32_neg_eq (u : Int) (h : wrap32 (-u) ≠ -2147483648) :
    wrap32 u = -wrap32 (-u) := by
  unfold wrap32 at h ⊢
  omega

/-- C10 counterexample: with the weight configuration
`corner = 2147483647` (i32 max) and boards `white = 1` (a corner
disc), `black = 0`, the i32 arithmetic wraps and both orientations
evaluate to `-2147483648`, so `eval(w, b) ≠ -eval(b, w)`. -/
theorem c10_counterexample :
    eval_position_with_cfg 1 0
      { corner_value := 2147483647, edge_value := 0, antiedge_value := 0,
        anticorner_value := 0 } = -2147483648 ∧
    eval_position_with_cfg 0 1
      { corner_value := 2147483647, edge_value := 0, antiedge_value := 0,
        anticorner_value := 0 } = -2147483648 ∧
    eval_position_with_cfg 1 0
      { corner_value := 2147483647, edge_value := 0, antiedge_value := 0,
        anticorner_value := 0 } ≠
      -eval_position_with_cfg 0 1
        { corner_value := 2147483647, edge_value := 0, antiedge_value := 0,
          anticorner_value := 0 } :=
  ⟨by decide, by decide, by decide⟩

/-- C10 amended.  Swapping the colors negates the score modulo `2^32`
(always), and exactly (as `i32` values) whenever the negation does not
overflow, i.e. whenever `eval(b, w, cfg) ≠ i32::MIN`; the standard
starting position evaluates to 0 for every weight configuration. -/
theorem c10_eval_antisym :
    (∀ (w b : Nat) (cfg : EvalCfg),
      (eval_position_with_cfg w b cfg + eval_position_with_cfg b w cfg) %
        4294967296 = 0) ∧
    (∀ (w b : Nat) (cfg : EvalCfg),
      eval_position_with_cfg b w cfg ≠ -2147483648 →
      eval_position_with_cfg w b cfg = -eval_position_with_cfg b w cfg) ∧
    (∀ cfg : EvalCfg,
      eval_position_with_cfg 0x0000001008000000 0x0000000810000000 cfg =
        0) := by
  have key : ∀ (w b : Nat) (cfg : EvalCfg),
      eval_position_with_cfg w b cfg =
        wrap32 (side_score b cfg - side_score w cfg) := fun _ _ _ => rfl
  refine ⟨fun w b cfg => ?_, fun w b cfg h => ?_, fun cfg => ?_⟩
  · rw [key, key,
      show side_score w cfg - side_score b cfg =
        -(side_score b cfg - side_score w cfg) by ring]
    exact wrap32_add_neg _
  · rw [key b w cfg] at h
    rw [key w b cfg, key b w cfg]
    rw [show side_score w cfg - side_score b cfg =
        -(side_score b cfg - side_score w cfg) by ring] at h ⊢
    exact wrap32_neg_eq _ h
  · have hb : side_score 0x0000000810000000 cfg = 2 := by
      unfold side_score
      norm_num [(by decide : count_ones (0x0000000810000000 &&& CORNER_MASK) = 0),
        (by decide : count_ones (0x0000000810000000 &&& EDGE_MASK) = 0),
        (by decide : count_ones (0x0000000810000000 &&& ANTIEDGE_MASK) = 0),
        (by decide : count_ones (0x0000000810000000 &&& ANTICORNER_MASK) = 0),
        (by decide : count_ones 0x0000000810000000 = 2), wrap32]
    have hw : side_score 0x0000001008000000 cfg = 2 := by
      unfold side_score
      norm_num [(by decide : count_ones (0x0000001008000000 &&& CORNER_MASK) = 0),
        (by decide : count_ones (0x0000001008000000 &&& EDGE_MASK) = 0),
        (by decide : count_ones (0x0000001008000000 &&& ANTIEDGE_MASK) = 0),
        (by decide : count_ones (0x0000001008000000 &&& ANTICORNER_MASK) = 0),
        (by decide : count_ones 0x0000001008000000 = 2), wrap32]
    rw [key, hb, hw]
    norm_num [wrap32]

/-! ## Single-bit step lemmas for the eight directional shifts -/

theorem two_pow_and (p a : Nat) :
    2 ^ p &&& a = if a.testBit p then 2 ^ p else 0 := by
  apply Nat.eq_of_testBit_eq
  intro j
  rw [Nat.testBit_and, apply_ite (fun x : Nat => Nat.testBit x j),
    Nat.zero_testBit, Nat.testBit_two_pow]
  by_cases hj : p = j
  · subst hj
    cases ha : a.testBit p <;> simp [ha]
  · simp [hj, Nat.testBit_two_pow_of_ne hj]

theorem two_pow_and_ne_zero (p a : Nat) :
    (2 ^ p &&& a ≠ 0) ↔ a.testBit p = true := by
  have hpos : 2 ^ p ≠ 0 := by positivity
  rw [two_pow_and]
  split <;> simp_all

theorem NOT_H_testBit (j : Nat) :
    NOT_H_FILE.testBit j = decide (j < 64 ∧ j % 8 ≠ 7) := by
  by_cases hj : j < 64
  · have h64 : ∀ i, i < 64 →
        (NOT_H_FILE.testBit i = decide (i % 8 ≠ 7)) := by decide
    rw [h64 j hj]
    simp [hj]
  · rw [Nat.testBit_lt_two_pow]
    · simp [hj]
    · calc NOT_H_FILE < 2 ^ 64 := by decide
        _ ≤ 2 ^ j := Nat.pow_le_pow_right (by omega) (by omega)

theorem NOT_A_testBit (j : Nat) :
    NOT_A_FILE.testBit j = decide (j < 64 ∧ j % 8 ≠ 0) := by
  by_cases hj : j < 64
  · have h64 : ∀ i, i < 64 →
        (NOT_A_FILE.testBit i = decide (i % 8 ≠ 0)) := by decide
    rw [h64 j hj]
    simp [hj]
  · rw [Nat.testBit_lt_two_pow]
    · simp [hj]
    · calc NOT_A_FILE < 2 ^ 64 := by decide
        _ ≤ 2 ^ j := Nat.pow_le_pow_right (by omega) (by omega)

theorem two_pow_and_NOTH {p : Nat} (hp : p < 64) :
    2 ^ p &&& NOT_H_FILE = if p % 8 = 7 then 0 else 2 ^ p := by
  rw [two_pow_and, NOT_H_testBit]
  by_cases h7 : p % 8 = 7 <;> simp [h7, hp]

theorem two_pow_and_NOTA {p : Nat} (hp : p < 64) :
    2 ^ p &&& NOT_A_FILE = if p % 8 = 0 then 0 else 2 ^ p := by
  rw [two_pow_and, NOT_A_testBit]
  by_cases h0 : p % 8 = 0 <;> simp [h0, hp]

theorem shiftl_two_pow (p s : Nat) : (2 ^ p) <<< s = 2 ^ (p + s) := by
  rw [Nat.shiftLeft_eq, ← Nat.pow_add]

theorem shiftr_two_pow (p s : Nat) :
    (2 ^ p) >>> s = if s ≤ p then 2 ^ (p - s) else 0 := by
  rw [Nat.shiftRight_eq_div_pow]
  split
  · exact Nat.pow_div (by assumption) (by omega)
  · exact Nat.div_eq_of_lt (Nat.pow_lt_pow_right (by omega) (by omega))

theorem pow_mod_u64 (e : Nat) :
    2 ^ e % U64MOD = if e < 64 then 2 ^ e else 0 := by
  have hmod : U64MOD = 2 ^ 64 := by decide
  rw [hmod]
  split
  · exact Nat.mod_eq_of_lt (Nat.pow_lt_pow_right (by omega) (by omega))
  · exact Nat.mod_eq_zero_of_dvd (Nat.pow_dvd_pow 2 (by omega))

theorem posIdx_lt {x y : Int} (hx0 : 0 ≤ x) (hx8 : x < 8) (hy0 : 0 ≤ y)
    (hy8 : y < 8) : posIdx x y < 64 := by
  simp only [posIdx]
  omega

theorem L1_north (x y : Int) (hx0 : 0 ≤ x) (hx8 : x < 8) (hy0 : 0 ≤ y)
    (hy8 : y < 8) :
    shift_north (2 ^ posIdx x y) =
      (if inB (x + 0) (y + 1) then 2 ^ posIdx (x + 0) (y + 1) else 0) := by
  unfold shift_north inB
  rw [shiftl_two_pow, pow_mod_u64]
  by_cases hy7 : y < 7
  · rw [if_pos (by simp only [posIdx]; omega), if_pos (by omega)]
    congr 1
    simp only [posIdx]
    omega
  · rw [if_neg (by simp only [posIdx]; omega), if_neg (by omega)]

theorem L1_south (x y : Int) (hx0 : 0 ≤ x) (hx8 : x < 8) (hy0 : 0 ≤ y)
    (hy8 : y < 8) :
    shift_south (2 ^ posIdx x y) =
      (if inB (x + 0) (y + (-1)) then 2 ^ posIdx (x + 0) (y + (-1)) else 0) := by
  unfold shift_south inB
  rw [shiftr_two_pow]
  by_cases hy1 : 1 ≤ y
  · rw [if_pos (by simp only [posIdx]; omega), if_pos (by omega)]
    congr 1
    simp only [posIdx]
    omega
  · rw [if_neg (by simp only [posIdx]; omega), if_neg (by omega)]

theorem L1_east (x y : Int) (hx0 : 0 ≤ x) (hx8 : x < 8) (hy0 : 0 ≤ y)
    (hy8 : y < 8) :
    shift_east (2 ^ posIdx x y) =
      (if inB (x + 1) (y + 0) then 2 ^ posIdx (x + 1) (y + 0) else 0) := by
  unfold shift_east inB
  rw [two_pow_and_NOTH (posIdx_lt hx0 hx8 hy0 hy8)]
  by_cases hx7 : x < 7
  · rw [if_neg (by simp only [posIdx]; omega), shiftl_two_pow, pow_mod_u64,
      if_pos (by simp only [posIdx]; omega), if_pos (by omega)]
    congr 1
    simp only [posIdx]
    omega
  · rw [if_pos (by simp only [posIdx]; omega)]
    rw [if_neg (by omega)]
    decide

theorem L1_west (x y : Int) (hx0 : 0 ≤ x) (hx8 : x < 8) (hy0 : 0 ≤ y)
    (hy8 : y < 8) :
    shift_west (2 ^ posIdx x y) =
      (if inB (x + (-1)) (y + 0) then 2 ^ posIdx (x + (-1)) (y + 0) else 0) := by
  unfold shift_west inB
  rw [two_pow_and_NOTA (posIdx_lt hx0 hx8 hy0 hy8)]
  by_cases hx1 : 1 ≤ x
  · rw [if_neg (by simp only [posIdx]; omega), shiftr_two_pow,
      if_pos (by simp only [posIdx]; omega), if_pos (by omega)]
    congr 1
    simp only [posIdx]
    omega
  · rw [if_pos (by simp only [posIdx]; omega), if_neg (by omega)]
    decide

theorem L1_ne (x y : Int) (hx0 : 0 ≤ x) (hx8 : x < 8) (hy0 : 0 ≤ y)
    (hy8 : y < 8) :
    shift_ne (2 ^ posIdx x y) =
      (if inB (x + 1) (y + 1) then 2 ^ posIdx (x + 1) (y + 1) else 0) := by
  unfold shift_ne inB
  rw [two_pow_and_NOTH (posIdx_lt hx0 hx8 hy0 hy8)]
  by_cases hx7 : x < 7
  · rw [if_neg (by simp only [posIdx]; omega), shiftl_two_pow, pow_mod_u64]
    by_cases hy7 : y < 7
    · rw [if_pos (by simp only [posIdx]; omega), if_pos (by omega)]
      congr 1
      simp only [posIdx]
      omega
    · rw [if_neg (by simp only [posIdx]; omega), if_neg (by omega)]
  · rw [if_pos (by simp only [posIdx]; omega), if_neg (by omega)]
    decide

theorem L1_nw (x y : Int) (hx0 : 0 ≤ x) (hx8 : x < 8) (hy0 : 0 ≤ y)
    (hy8 : y < 8) :
    shift_nw (2 ^ posIdx x y) =
      (if inB (x + (-1)) (y + 1) then 2 ^ posIdx (x + (-1)) (y + 1) else 0) := by
  unfold shift_nw inB
  rw [two_pow_and_NOTA (posIdx_lt hx0 hx8 hy0 hy8)]
  by_cases hx1 : 1 ≤ x
  · rw [if_neg (by simp only [posIdx]; omega), shiftl_two_pow, pow_mod_u64]
    by_cases hy7 : y < 7
    · rw [if_pos (by simp only [posIdx]; omega), if_pos (by omega)]
      congr 1
      simp only [posIdx]
      omega
    · rw [if_neg (by simp only [posIdx]; omega), if_neg (by omega)]
  · rw [if_pos (by simp only [posIdx]; omega), if_neg (by omega)]
    decide

theorem L1_se (x y : Int) (hx0 : 0 ≤ x) (hx8 : x < 8) (hy0 : 0 ≤ y)
    (hy8 : y < 8) :
    shift_se (2 ^ posIdx x y) =
      (if inB (x + 1) (y + (-1)) then 2 ^ posIdx (x + 1) (y + (-1)) else 0) := by
  unfold shift_se inB
  rw [two_pow_and_NOTH (posIdx_lt hx0 hx8 hy0 hy8)]
  by_cases hx7 : x < 7
  · rw [if_neg (by simp only [posIdx]; omega), shiftr_two_pow]
    by_cases hy1 : 1 ≤ y
    · rw [if_pos (by simp only [posIdx]; omega), if_pos (by omega)]
      congr 1
      simp only [posIdx]
      omega
    · rw [if_neg (by simp only [posIdx]; omega), if_neg (by omega)]
  · rw [if_pos (by simp only [posIdx]; omega), if_neg (by omega)]
    decide

theorem L1_sw (x y : Int) (hx0 : 0 ≤ x) (hx8 : x < 8) (hy0 : 0 ≤ y)
    (hy8 : y < 8) :
    shift_sw (2 ^ posIdx x y) =
      (if inB (x + (-1)) (y + (-1)) then 2 ^ posIdx (x + (-1)) (y + (-1))
       else 0) := by
  unfold shift_sw inB
  rw [two_pow_and_NOTA (posIdx_lt hx0 hx8 hy0 hy8)]
  by_cases hx1 : 1 ≤ x
  · rw [if_neg (by simp only [posIdx]; omega), shiftr_two_pow]
    by_cases hy1 : 1 ≤ y
    · rw [if_pos (by simp only [posIdx]; omega), if_pos (by omega)]
      congr 1
      simp only [posIdx]
      omega
    · rw [if_neg (by simp only [posIdx]; omega), if_neg (by omega)]
  · rw [if_pos (by simp only [posIdx]; omega), if_neg (by omega)]
    decide

/-! ## Claim C7: the two move-application routines agree -/

theorem flipWalk_zero (shift : Nat → Nat) (me opp : Nat) :
    ∀ (n : Nat) (acc : Nat), flipWalk shift me opp n 0 acc = 0 := by
  intro n acc
  cases n <;> simp [flipWalk]

theorem rayFrom_oob (dx dy : Int) (n : Nat) (x y : Int)
    (h : ¬(0 ≤ x ∧ x < 8 ∧ 0 ≤ y ∧ y < 8)) : rayFrom dx dy n x y = [] := by
  cases n <;> simp [rayFrom, h]

theorem rayFrom_cons (dx dy : Int) (n : Nat) (x y : Int)
    (h : 0 ≤ x ∧ x < 8 ∧ 0 ≤ y ∧ y < 8) :
    rayFrom dx dy (n + 1) x y =
      posIdx x y :: rayFrom dx dy n (x + dx) (y + dy) := by
  simp [rayFrom, h]

theorem flipWalk_ray (shift : Nat → Nat) (dx dy : Int)
    (hL1 : ∀ x y : Int, 0 ≤ x → x < 8 → 0 ≤ y → y < 8 →
      shift (2 ^ posIdx x y) =
        (if inB (x + dx) (y + dy) then 2 ^ posIdx (x + dx) (y + dy) else 0))
    (me opp : Nat) :
    ∀ (n : Nat) (x y : Int) (acc : Nat), 0 ≤ x → x < 8 → 0 ≤ y → y < 8 →
      flipWalk shift me opp n (2 ^ posIdx x y) acc =
        rayFlips me opp (rayFrom dx dy n x y) acc := by
  intro n
  induction n with
  | zero =>
    intro x y acc _ _ _ _
    rfl
  | succ n ih =>
    intro x y acc hx0 hx8 hy0 hy8
    rw [rayFrom_cons dx dy n x y ⟨hx0, hx8, hy0, hy8⟩]
    show (if 2 ^ posIdx x y &&& opp ≠ 0 then
        flipWalk shift me opp n (shift (2 ^ posIdx x y))
          (acc ||| 2 ^ posIdx x y)
      else if 2 ^ posIdx x y &&& me ≠ 0 then acc else 0) = _
    by_cases hopp : opp.testBit (posIdx x y)
    · rw [if_pos (show 2 ^ posIdx x y &&& opp ≠ 0 from
        (two_pow_and_ne_zero _ _).mpr hopp)]
      simp only [rayFlips]
      rw [if_pos hopp, hL1 x y hx0 hx8 hy0 hy8]
      by_cases hin : inB (x + dx) (y + dy)
      · rw [if_pos hin]
        exact ih (x + dx) (y + dy) (acc ||| 2 ^ posIdx x y) hin.1 hin.2.1
          hin.2.2.1 hin.2.2.2
      · rw [if_neg hin, flipWalk_zero, rayFrom_oob dx dy n _ _ hin]
        rfl
    · rw [if_neg (show ¬(2 ^ posIdx x y &&& opp ≠ 0) from
        fun hc => hopp ((two_pow_and_ne_zero _ _).mp hc))]
      simp only [rayFlips]
      rw [if_neg (show ¬(opp.testBit (posIdx x y) = true) by simp [hopp])]
      by_cases hme : me.testBit (posIdx x y)
      · rw [if_pos (show 2 ^ posIdx x y &&& me ≠ 0 from
          (two_pow_and_ne_zero _ _).mpr hme), if_pos hme]
      · rw [if_neg (show ¬(2 ^ posIdx x y &&& me ≠ 0) from
          fun hc => hme ((two_pow_and_ne_zero _ _).mp hc)),
          if_neg (show ¬(me.testBit (posIdx x y) = true) by simp [hme])]

theorem scanDir_ray (player opponent : Nat) (dx dy : Int) :
    ∀ (n : Nat) (x y : Int) (cur : Nat) (found : Bool),
      (found = true ↔ cur ≠ 0) →
      scanDir player opponent dx dy n x y cur found =
        rayFlips player opponent (rayFrom dx dy n x y) cur := by
  intro n
  induction n with
  | zero =>
    intros
    rfl
  | succ n ih =>
    intro x y cur found hinv
    have hpi : ∀ u v : Int, (v * 8 + u).toNat = posIdx u v := fun _ _ => rfl
    by_cases hin : 0 ≤ x ∧ x < 8 ∧ 0 ≤ y ∧ y < 8
    · rw [rayFrom_cons dx dy n x y hin]
      show (if 0 ≤ x ∧ x < 8 ∧ 0 ≤ y ∧ y < 8 then
          (if opponent &&& (1 <<< (y * 8 + x).toNat) ≠ 0 then
            scanDir player opponent dx dy n (x + dx) (y + dy)
              (cur ||| (1 <<< (y * 8 + x).toNat)) true
          else if player &&& (1 <<< (y * 8 + x).toNat) ≠ 0 then
            (if found then cur else 0)
          else 0)
        else 0) = _
      rw [if_pos hin]
      simp only [hpi, Nat.one_shiftLeft]
      by_cases hopp : opponent.testBit (posIdx x y)
      · rw [if_pos (show opponent &&& 2 ^ posIdx x y ≠ 0 by
          rw [Nat.and_comm]; exact (two_pow_and_ne_zero _ _).mpr hopp)]
        simp only [rayFlips]
        rw [if_pos hopp]
        apply ih
        constructor
        · intro _ hc
          exact absurd (or_eq_zero hc).2 (by positivity)
        · intro _
          rfl
      · rw [if_neg (show ¬(opponent &&& 2 ^ posIdx x y ≠ 0) from fun hc =>
          hopp ((two_pow_and_ne_zero _ _).mp (by rwa [Nat.and_comm] at hc)))]
        simp only [rayFlips]
        rw [if_neg (show ¬(opponent.testBit (posIdx x y) = true) by
          simp [hopp])]
        by_cases hme : player.testBit (posIdx x y)
        · rw [if_pos (show player &&& 2 ^ posIdx x y ≠ 0 by
            rw [Nat.and_comm]; exact (two_pow_and_ne_zero _ _).mpr hme),
            if_pos hme]
          by_cases hf : found = true
          · rw [if_pos hf]
          · have hc0 : cur = 0 := by
              by_contra hc
              exact hf (hinv.mpr hc)
            rw [if_neg hf, hc0]
        · rw [if_neg (show ¬(player &&& 2 ^ posIdx x y ≠ 0) from fun hc =>
            hme ((two_pow_and_ne_zero _ _).mp (by rwa [Nat.and_comm] at hc))),
            if_neg (show ¬(player.testBit (posIdx x y) = true) by simp [hme])]
    · rw [rayFrom_oob dx dy _ x y hin]
      show (if 0 ≤ x ∧ x < 8 ∧ 0 ≤ y ∧ y < 8 then _ else 0) = _
      rw [if_neg hin]
      rfl

theorem tzAux_two_pow : ∀ (fuel k : Nat), k < fuel → tzAux fuel (2 ^ k) = k := by
  intro fuel
  induction fuel with
  | zero =>
    intro k hk
    omega
  | succ fuel ih =>
    intro k hk
    cases k with
    | zero => simp [tzAux]
    | succ k' =>
      have heven : ¬ (2 ^ (k' + 1) % 2 = 1) := by
        rw [Nat.pow_succ, Nat.mul_mod_left]
        omega
      have hdiv : (2 : Nat) ^ (k' + 1) / 2 = 2 ^ k' := by
        rw [Nat.pow_succ]
        exact Nat.mul_div_cancel _ (by omega)
      simp only [tzAux, if_neg heven, hdiv, ih k' (by omega)]
      omega

theorem tz_two_pow {k : Nat} (hk : k < 64) : trailing_zeros (2 ^ k) = k := by
  unfold trailing_zeros
  rw [if_neg (by positivity)]
  exact tzAux_two_pow 64 k hk

theorem flip_in_dir_ray (shift : Nat → Nat) (dx dy : Int)
    (hL1 : ∀ x y : Int, 0 ≤ x → x < 8 → 0 ≤ y → y < 8 →
      shift (2 ^ posIdx x y) =
        (if inB (x + dx) (y + dy) then 2 ^ posIdx (x + dx) (y + dy) else 0))
    (me opp k : Nat) (hk : k < 64) :
    flip_in_dir (2 ^ k) me opp shift =
      rayFlips me opp
        (rayFrom dx dy 64 ((k % 8 : Nat) + dx) ((k / 8 : Nat) + dy)) 0 := by
  unfold flip_in_dir
  have hk' : (2 : Nat) ^ k =
      2 ^ posIdx ((k % 8 : Nat) : Int) ((k / 8 : Nat) : Int) := by
    congr 1
    simp only [posIdx]
    omega
  rw [hk', hL1 _ _ (by positivity) (by exact_mod_cast Nat.mod_lt k (by omega))
    (by positivity) (by exact_mod_cast Nat.div_lt_of_lt_mul (by omega))]
  by_cases hin : inB ((k % 8 : Nat) + dx) ((k / 8 : Nat) + dy)
  · rw [if_pos hin]
    exact flipWalk_ray shift dx dy hL1 me opp 64 _ _ 0 hin.1 hin.2.1
      hin.2.2.1 hin.2.2.2
  · rw [if_neg hin, flipWalk_zero, rayFrom_oob dx dy 64 _ _ hin]
    rfl

theorem nat_or_lcomm (a b c : Nat) : a ||| (b ||| c) = b ||| (a ||| c) := by
  rw [← Nat.or_assoc, Nat.or_comm a b, Nat.or_assoc]

/-- The eight-direction bit-parallel flip mask equals the
eight-direction coordinate-scan flip mask on single-bit moves. -/
theorem flip_masks_eq (me opp k : Nat) (hk : k < 64) :
    flip_mask_opt (2 ^ k) me opp = flips_scan me opp (2 ^ k) := by
  have htz : trailing_zeros (2 ^ k) = k := tz_two_pow hk
  have hray : ∀ dx dy : Int,
      scanDir me opp dx dy 64 ((k % 8 : Nat) + dx) ((k / 8 : Nat) + dy) 0
        false =
      rayFlips me opp
        (rayFrom dx dy 64 ((k % 8 : Nat) + dx) ((k / 8 : Nat) + dy)) 0 :=
    fun dx dy => scanDir_ray me opp dx dy 64 _ _ 0 false (by simp)
  unfold flip_mask_opt flips_scan DIRECTIONS
  simp only [List.foldl_cons, List.foldl_nil, htz]
  rw [flip_in_dir_ray shift_north 0 1 L1_north me opp k hk,
    flip_in_dir_ray shift_south 0 (-1) L1_south me opp k hk,
    flip_in_dir_ray shift_east 1 0 L1_east me opp k hk,
    flip_in_dir_ray shift_west (-1) 0 L1_west me opp k hk,
    flip_in_dir_ray shift_ne 1 1 L1_ne me opp k hk,
    flip_in_dir_ray shift_nw (-1) 1 L1_nw me opp k hk,
    flip_in_dir_ray shift_se 1 (-1) L1_se me opp k hk,
    flip_in_dir_ray shift_sw (-1) (-1) L1_sw me opp k hk,
    hray (-1) (-1), hray (-1) 0, hray (-1) 1, hray 0 (-1), hray 0 1,
    hray 1 (-1), hray 1 0, hray 1 1]
  simp [Nat.or_assoc, Nat.or_comm, nat_or_lcomm, Nat.zero_or, Nat.or_zero]

theorem apply_routines_eq (white black mv : Nat) (s : Bool)
    (hocc : (mv &&& (white ||| black) ≠ 0) ↔
      (((if s then white else black) ||| (if s then black else white)) &&&
        mv ≠ 0))
    (hflip : flip_mask_opt mv (if s then white else black)
        (if s then black else white) =
      flips_scan (if s then white else black) (if s then black else white)
        mv) :
    apply_move_opt white black mv s = apply_move white black mv s := by
  unfold apply_move_opt apply_move
  by_cases h : mv &&& (white ||| black) ≠ 0
  · rw [if_pos h, if_pos (hocc.mp h)]
  · rw [if_neg h, if_neg (fun hh => h (hocc.mpr hh))]
    simp only [hflip]

/-- C7.  The optimised bit-parallel move application and the
direction-scan move application return identical results on every
single-bit move (and `apply_move_verbose` is the same routine as
`apply_move`, so it agrees as well). -/
theorem c7_apply_move_equivalence (white black k : Nat) (s : Bool)
    (hk : k < 64) :
    apply_move_opt white black (2 ^ k) s =
      apply_move white black (2 ^ k) s ∧
    (∀ (w b mv : Nat) (s2 : Bool),
      apply_move_verbose w b mv s2 = apply_move w b mv s2) := by
  refine ⟨apply_routines_eq white black (2 ^ k) s ?_ ?_, fun _ _ _ _ => rfl⟩
  · cases s
    · show _ ↔ ((black ||| white) &&& 2 ^ k ≠ 0)
      rw [Nat.and_comm, Nat.or_comm]
    · show _ ↔ ((white ||| black) &&& 2 ^ k ≠ 0)
      rw [Nat.and_comm]
  · cases s
    · exact flip_masks_eq black white k hk
    · exact flip_masks_eq white black k hk

/-- C7 witness: both routines on the claim's concrete board agree (the
successful c4 move, square 26). -/
theorem c7_witness :
    apply_move_opt 35253361508352 171935537184 (2 ^ 26) true =
      apply_move 35253361508352 171935537184 (2 ^ 26) true ∧
    (∀ (w b mv : Nat) (s2 : Bool),
      apply_move_verbose w b mv s2 = apply_move w b mv s2) :=
  c7_apply_move_equivalence 35253361508352 171935537184 26 true (by decide)

/-! ## Claim C8: opening-book dihedral symmetry -/

theorem foldl_or_testBit {α : Type} (t : α → Nat) (L : List α) (acc i : Nat) :
    (L.foldl (fun r k => r ||| t k) acc).testBit i =
      (acc.testBit i || L.any fun k => (t k).testBit i) := by
  induction L generalizing acc with
  | nil => simp
  | cons x xs ih =>
    rw [List.foldl_cons, ih, List.any_cons]
    simp [Nat.testBit_or, Bool.or_assoc]

theorem foldl_or_from_acc {α : Type} (t : α → Nat) (L : List α) (acc : Nat) :
    L.foldl (fun r k => r ||| t k) acc =
      acc ||| L.foldl (fun r k => r ||| t k) 0 := by
  induction L generalizing acc with
  | nil => simp
  | cons x xs ih =>
    rw [List.foldl_cons, List.foldl_cons, ih, ih (0 ||| t x), Nat.zero_or,
      Nat.or_assoc]

theorem ite_bit_and {c : Prop} [Decidable c] (x : Bool) :
    (if c then x else false) = (decide c && x) := by
  split <;> simp_all

theorem shift_and_one (b k : Nat) :
    ((b >>> k) &&& 1 = 1) ↔ b.testBit k = true := by
  rw [Nat.and_one_is_mod, Nat.shiftRight_eq_div_pow, Nat.testBit_to_div_mod,
    decide_eq_true_eq]

/-- `rotate90` rewritten with an unconditional-OR loop body. -/
theorem rotate90_body (b : Nat) :
    rotate90 b =
      (List.range 8).foldl
        (fun r row =>
          r |||
            (List.range 8).foldl
              (fun r2 col =>
                r2 |||
                  (if (b >>> (row * 8 + col)) &&& 1 = 1 then
                    (1 <<< (col * 8 + (7 - row))) else 0))
              0)
        0 := by
  unfold rotate90
  have h : ∀ row : Nat,
      (fun (rotated col : Nat) =>
        let from_index := row * 8 + col
        let to_index := col * 8 + (7 - row)
        if (b >>> from_index) &&& 1 = 1 then rotated ||| (1 <<< to_index)
        else rotated) =
      (fun (rotated col : Nat) =>
        rotated |||
          (if (b >>> (row * 8 + col)) &&& 1 = 1 then
            (1 <<< (col * 8 + (7 - row))) else 0)) := by
    intro row
    funext rotated col
    simp only []
    split <;> simp
  simp only [h]
  exact congrArg (fun f => List.foldl f 0 (List.range 8))
    (funext fun r => funext fun row => foldl_or_from_acc _ _ r)

theorem rotate90_testBit_any (b i : Nat) :
    (rotate90 b).testBit i =
      (List.range 8).any (fun row =>
        (List.range 8).any (fun col =>
          decide ((b >>> (row * 8 + col)) &&& 1 = 1) &&
            decide (col * 8 + (7 - row) = i))) := by
  rw [rotate90_body, foldl_or_testBit]
  simp only [Nat.zero_testBit, Bool.false_or]
  apply congrArg
  funext row
  rw [foldl_or_testBit]
  simp only [Nat.zero_testBit, Bool.false_or]
  apply congrArg
  funext col
  rw [apply_ite (fun x : Nat => Nat.testBit x i), Nat.zero_testBit,
    ite_bit_and, Nat.one_shiftLeft, Nat.testBit_two_pow]

/-- The claim's bit action of the rotation: bit `(row, col)` of the
input appears at `col * 8 + (7 - row)` of the rotation. -/
theorem rotate90_testBit (b i : Nat) (hi : i < 64) :
    (rotate90 b).testBit i = b.testBit (rotIdx i) := by
  rw [rotate90_testBit_any]
  rcases hbit : b.testBit (rotIdx i) with _ | _
  · apply List.any_eq_false.mpr
    intro row hrow hinner
    obtain ⟨col, hcol, hcc⟩ := List.any_eq_true.mp hinner
    simp only [Bool.and_eq_true, decide_eq_true_eq] at hcc
    obtain ⟨hc, hto⟩ := hcc
    have hrow8 := List.mem_range.mp hrow
    have hcol8 := List.mem_range.mp hcol
    have hidx : row * 8 + col = rotIdx i := by
      simp only [rotIdx]
      omega
    have htb := (shift_and_one b (row * 8 + col)).mp hc
    rw [hidx, hbit] at htb
    exact Bool.false_ne_true htb
  · apply List.any_eq_true.mpr
    refine ⟨7 - i % 8, List.mem_range.mpr (by omega), ?_⟩
    apply List.any_eq_true.mpr
    refine ⟨i / 8, List.mem_range.mpr (by omega), ?_⟩
    simp only [Bool.and_eq_true, decide_eq_true_eq]
    constructor
    · apply (shift_and_one b _).mpr
      have harith : (7 - i % 8) * 8 + i / 8 = rotIdx i := by
        simp only [rotIdx]
      rw [harith]
      exact hbit
    · omega

theorem rotate90_lt (b : Nat) : rotate90 b < 2 ^ 64 := by
  apply Nat.lt_pow_two_of_testBit
  intro i hi
  rw [rotate90_testBit_any]
  apply List.any_eq_false.mpr
  intro row hrow hinner
  obtain ⟨col, hcol, hcc⟩ := List.any_eq_true.mp hinner
  simp only [Bool.and_eq_true, decide_eq_true_eq] at hcc
  have hrow8 := List.mem_range.mp hrow
  have hcol8 := List.mem_range.mp hcol
  omega

theorem rotIdx_lt {i : Nat} (hi : i < 64) : rotIdx i < 64 := by
  simp only [rotIdx]
  omega

theorem rotIdx_four : ∀ i, i < 64 →
    rotIdx (rotIdx (rotIdx (rotIdx i))) = i := by decide

theorem rotate90_four (b : Nat) (hb : b < 2 ^ 64) :
    rotate90 (rotate90 (rotate90 (rotate90 b))) = b := by
  apply Nat.eq_of_testBit_eq
  intro i
  by_cases hi : i < 64
  · rw [rotate90_testBit _ _ hi, rotate90_testBit _ _ (rotIdx_lt hi),
      rotate90_testBit _ _ (rotIdx_lt (rotIdx_lt hi)),
      rotate90_testBit _ _ (rotIdx_lt (rotIdx_lt (rotIdx_lt hi))),
      rotIdx_four i hi]
  · rw [Nat.testBit_lt_two_pow, Nat.testBit_lt_two_pow]
    · exact lt_of_lt_of_le hb (Nat.pow_le_pow_right (by omega) (by omega))
    · exact lt_of_lt_of_le (rotate90_lt _)
        (Nat.pow_le_pow_right (by omega) (by omega))

theorem rotate_position_four (p : Position) (hb : p.black < 2 ^ 64)
    (hw : p.white < 2 ^ 64) :
    rotate_position_90 (rotate_position_90 (rotate_position_90
      (rotate_position_90 p))) = p := by
  obtain ⟨pb, pw, ps⟩ := p
  simp only [rotate_position_90, Position.mk.injEq]
  exact ⟨rotate90_four pb hb, rotate90_four pw hw, trivial⟩

theorem book_insert_self (book : OpeningBook) (p : Position) (mv : Nat) :
    ∃ e, (book.insert_position p mv) p = some e ∧ mv ∈ e := by
  unfold OpeningBook.insert_position
  simp only [if_pos rfl]
  cases hbp : book p with
  | none => exact ⟨[mv], rfl, by simp⟩
  | some entry =>
    by_cases hm : mv ∈ entry
    · exact ⟨entry, by simp [hm], hm⟩
    · exact ⟨entry ++ [mv], by simp [hm], by simp⟩

theorem book_insert_preserves (book : OpeningBook) (p : Position) (mv : Nat)
    (q : Position) (mv' : Nat) (h : ∃ e, book q = some e ∧ mv' ∈ e) :
    ∃ e, (book.insert_position p mv) q = some e ∧ mv' ∈ e := by
  obtain ⟨e, he, hm⟩ := h
  unfold OpeningBook.insert_position
  by_cases hq : q = p
  · subst hq
    refine ⟨if mv ∈ e then e else e ++ [mv], by simp [he], ?_⟩
    split <;> simp [hm]
  · exact ⟨e, by simp [hq, he], hm⟩

theorem book_contains_after_inserts (L : List (Position × Nat))
    (book : OpeningBook) (q : Position) (mv : Nat)
    (h : (q, mv) ∈ L ∨ ∃ e, book q = some e ∧ mv ∈ e) :
    ∃ e, (L.foldl (fun bk pm => bk.insert_position pm.1 pm.2) book) q =
      some e ∧ mv ∈ e := by
  induction L generalizing book with
  | nil =>
    rcases h with h | h
    · simp at h
    · exact h
  | cons x xs ih =>
    rw [List.foldl_cons]
    apply ih
    rcases h with h | h
    · rcases List.mem_cons.mp h with h | h
      · right
        have h1 : q = x.1 := by rw [← h]
        have h2 : mv = x.2 := by rw [← h]
        rw [h1, h2]
        exact book_insert_self book x.1 x.2
      · exact Or.inl h
    · exact Or.inr (book_insert_preserves book x.1 x.2 q mv h)

/-- The twelve (position, move) pairs inserted by
`insert_all_rotations`, in insertion order. -/
def insertedPairs (pos : Position) (m : Nat) : List (Position × Nat) :=
  [(pos, m),
   (flip_position_vertical (rotNPos 1 pos),
    flip_move_vertical (rotNMove 1 m)),
   (flip_position_horizontal (rotNPos 1 pos),
    flip_move_horizontal (rotNMove 1 m)),
   (rotNPos 1 pos, rotNMove 1 m),
   (flip_position_vertical (rotNPos 2 pos),
    flip_move_vertical (rotNMove 2 m)),
   (flip_position_horizontal (rotNPos 2 pos),
    flip_move_horizontal (rotNMove 2 m)),
   (rotNPos 2 pos, rotNMove 2 m),
   (flip_position_vertical (rotNPos 3 pos),
    flip_move_vertical (rotNMove 3 m)),
   (flip_position_horizontal (rotNPos 3 pos),
    flip_move_horizontal (rotNMove 3 m)),
   (rotNPos 3 pos, rotNMove 3 m),
   (flip_position_vertical (rotNPos 4 pos),
    flip_move_vertical (rotNMove 4 m)),
   (flip_position_horizontal (rotNPos 4 pos),
    flip_move_horizontal (rotNMove 4 m))]

theorem insert_all_rotations_flat (book : OpeningBook) (pos : Position)
    (m : Nat) :
    book.insert_all_rotations pos m =
      (insertedPairs pos m).foldl
        (fun bk pm => bk.insert_position pm.1 pm.2) book := rfl

/-- C8.  `rotate90` maps bit `(r, c)` to `(c, 7 - r)` exactly as the
claim defines, and for every position and move inserted with
`insert_all_rotations`, all eight dihedral images — the four rotations
`rot^k` and the four reflections `flipV ∘ rot^k`, `k < 4` — are
present in the book, and `get` on each image returns an entry
containing the correspondingly transformed move. -/
theorem c8_book_symmetry (book : OpeningBook) (pos : Position) (m : Nat)
    (hb : pos.black < 2 ^ 64) (hw : pos.white < 2 ^ 64) (hm : m < 2 ^ 64)
    (k : Nat) (hk : k < 4) :
    (∀ (b r c : Nat), r < 8 → c < 8 →
      (rotate90 b).testBit (c * 8 + (7 - r)) = b.testBit (r * 8 + c)) ∧
    (∃ e, (book.insert_all_rotations pos m).get (rotNPos k pos) = some e ∧
      rotNMove k m ∈ e) ∧
    (∃ e, (book.insert_all_rotations pos m).get
        (flip_position_vertical (rotNPos k pos)) = some e ∧
      flip_move_vertical (rotNMove k m) ∈ e) := by
  have hp4 : rotNPos 4 pos = pos := by
    show rotate_position_90 (rotate_position_90 (rotate_position_90
      (rotate_position_90 pos))) = pos
    exact rotate_position_four pos hb hw
  have hm4 : rotNMove 4 m = m := by
    show rotate90 (rotate90 (rotate90 (rotate90 m))) = m
    exact rotate90_four m hm
  refine ⟨?_, ?_, ?_⟩
  · intro b r c hr hc
    have hi : c * 8 + (7 - r) < 64 := by omega
    rw [rotate90_testBit b _ hi]
    have : rotIdx (c * 8 + (7 - r)) = r * 8 + c := by
      simp only [rotIdx]
      omega
    rw [this]
  · rw [insert_all_rotations_flat]
    apply book_contains_after_inserts
    left
    interval_cases k <;> simp [insertedPairs, rotNPos, rotNMove]
  · rw [insert_all_rotations_flat]
    apply book_contains_after_inserts
    left
    have hlist : (flip_position_vertical pos, flip_move_vertical m) ∈
        insertedPairs pos m := by
      have : (flip_position_vertical (rotNPos 4 pos),
          flip_move_vertical (rotNMove 4 m)) ∈ insertedPairs pos m := by
        simp [insertedPairs]
      rwa [hp4, hm4] at this
    interval_cases k
    · exact hlist
    · simp [insertedPairs]
    · simp [insertedPairs]
    · simp [insertedPairs]

/-- C8 witness: the symmetry theorem applied to the starting position
with move d3 inserted into the empty book, at `k = 1`. -/
theorem c8_witness :
    (∀ (b r c : Nat), r < 8 → c < 8 →
      (rotate90 b).testBit (c * 8 + (7 - r)) = b.testBit (r * 8 + c)) ∧
    (∃ e, (OpeningBook.empty.insert_all_rotations startPos (2 ^ 19)).get
        (rotNPos 1 startPos) = some e ∧ rotNMove 1 (2 ^ 19) ∈ e) ∧
    (∃ e, (OpeningBook.empty.insert_all_rotations startPos (2 ^ 19)).get
        (flip_position_vertical (rotNPos 1 startPos)) = some e ∧
      flip_move_vertical (rotNMove 1 (2 ^ 19)) ∈ e) :=
  c8_book_symmetry OpeningBook.empty startPos (2 ^ 19) (by decide)
    (by decide) (by decide) 1 (by decide)

/-- C10 witness: the amended theorem applied at concrete boards and at
the starting position with the default weights. -/
theorem c10_witness :
    (eval_position_with_cfg 1 2 DEFAULT_CFG +
      eval_position_with_cfg 2 1 DEFAULT_CFG) % 4294967296 = 0 ∧
    eval_position_with_cfg 2 1 DEFAULT_CFG ≠ -2147483648 ∧
    eval_position_with_cfg 1 2 DEFAULT_CFG =
      -eval_position_with_cfg 2 1 DEFAULT_CFG ∧
    eval_position_with_cfg 0x0000001008000000 0x0000000810000000
      DEFAULT_CFG = 0 :=
  ⟨c10_eval_antisym.1 1 2 DEFAULT_CFG, by decide,
   c10_eval_antisym.2.1 1 2 DEFAULT_CFG (by decide),
   c10_eval_antisym.2.2 DEFAULT_CFG⟩

/-! ## Claim C9: root-parallel reduction determinism -/

theorem wrap32_range (x : Int) :
    -2147483648 ≤ wrap32 x ∧ wrap32 x < 2147483648 := by
  unfold wrap32
  omega

theorem opt_step_bound
    (child : Nat → Nat → Bool → Nat → Int → Int → Nat × Int)
    (hchild : ∀ a1 a2 a3 a4 a5 a6, IMIN ≤ (child a1 a2 a3 a4 a5 a6).2)
    (w b : Nat) (s : Bool) (depth : Nat) (cfg : EvalCfg) (st : LoopSt)
    (c : Nat) (h1 : ∀ r, st.finished = some r → IMIN ≤ r.2)
    (h2 : IMIN ≤ st.best_orig_eval) :
    (∀ r, (opt_step child w b s depth cfg st c).finished = some r →
      IMIN ≤ r.2) ∧
    IMIN ≤ (opt_step child w b s depth cfg st c).best_orig_eval := by
  unfold opt_step
  by_cases hf : st.finished.isSome
  · rw [if_pos hf]
    exact ⟨h1, h2⟩
  · rw [if_neg hf]
    cases hap : rt_apply_move w b c s with
    | error e => exact ⟨h1, h2⟩
    | ok p =>
      obtain ⟨nw, nb⟩ := p
      simp only []
      have hb1 := (wrap32_range (eval_position_with_cfg nw nb cfg)).1
      have hchd := hchild nw nb (!s) (depth - 1) st.local_alpha st.local_beta
      have hw1 := wrap32_range
        ((child nw nb (!s) (depth - 1) st.local_alpha st.local_beta).2 - 1)
      have hw2 := wrap32_range
        ((child nw nb (!s) (depth - 1) st.local_alpha st.local_beta).2 + 1)
      have hw3 := wrap32_range (eval_position_with_cfg nw nb cfg - 1)
      have hw4 := wrap32_range (eval_position_with_cfg nw nb cfg + 1)
      unfold IMIN at *
      constructor
      · intro r hr
        split_ifs at hr <;>
          first
          | exact h1 r hr
          | (injection hr with hr
             subst hr
             simp only []
             omega)
      · split_ifs <;>
          first
          | exact h2
          | (simp only []; omega)

theorem optloop_bound
    (child : Nat → Nat → Bool → Nat → Int → Int → Nat × Int)
    (hchild : ∀ a1 a2 a3 a4 a5 a6, IMIN ≤ (child a1 a2 a3 a4 a5 a6).2)
    (w b : Nat) (s : Bool) (depth : Nat) (cfg : EvalCfg) :
    ∀ (cands : List Nat) (st : LoopSt),
      (∀ r, st.finished = some r → IMIN ≤ r.2) →
      IMIN ≤ st.best_orig_eval →
      (∀ r, (cands.foldl (opt_step child w b s depth cfg) st).finished =
        some r → IMIN ≤ r.2) ∧
      IMIN ≤ (cands.foldl (opt_step child w b s depth cfg) st).best_orig_eval := by
  intro cands
  induction cands with
  | nil =>
    intro st h1 h2
    exact ⟨h1, h2⟩
  | cons c cs ih =>
    intro st h1 h2
    rw [List.foldl_cons]
    obtain ⟨g1, g2⟩ := opt_step_bound child hchild w b s depth cfg st c h1 h2
    exact ih _ g1 g2

theorem search_opt_ge : ∀ (fuel w b : Nat) (s : Bool) (depth : Nat)
    (alpha beta : Int) (od : Nat) (cfg : EvalCfg),
    IMIN ≤ (search_moves_opt fuel w b s depth alpha beta od cfg).2 := by
  intro fuel
  induction fuel with
  | zero =>
    intros
    norm_num [search_moves_opt, IMIN]
  | succ fuel ih =>
    intro w b s depth alpha beta od cfg
    simp only [search_moves_opt]
    split_ifs with h1 h2 h3 h4 h5
    · norm_num [IMIN]
    · norm_num [IMIN]
    · norm_num [IMIN]
    · exact ih w b (!s) depth alpha beta od cfg
    · exact (wrap32_range _).1
    · have hloop := optloop_bound
        (fun w2 b2 s2 d2 la lb =>
          search_moves_opt fuel w2 b2 s2 d2 la lb od cfg)
        (fun _ _ _ _ _ _ => ih _ _ _ _ _ _ _ _) w b s depth cfg
        (orderedCandidates (check_game_status w b s))
        { finished := none, best_move := U64MAX, best_eval := IMIN,
          best_orig_eval := 0, local_alpha := alpha, local_beta := beta }
        (by simp) (by norm_num [IMIN])
      cases hfin : ((orderedCandidates (check_game_status w b s)).foldl
          (opt_step
            (fun w2 b2 s2 d2 la lb =>
              search_moves_opt fuel w2 b2 s2 d2 la lb od cfg)
            w b s depth cfg)
          { finished := none, best_move := U64MAX, best_eval := IMIN,
            best_orig_eval := 0, local_alpha := alpha,
            local_beta := beta }).finished with
      | none =>
        simp only [hfin]
        exact hloop.2
      | some r =>
        simp only [hfin]
        exact hloop.1 r hfin

theorem foldl_pred {α : Type} (op : α → α → α) (P : α → Prop)
    (hop : ∀ a x, P a → P x → P (op a x)) :
    ∀ (l : List α) (a : α), P a → (∀ x ∈ l, P x) → P (l.foldl op a) := by
  intro l
  induction l with
  | nil =>
    intro a ha _
    exact ha
  | cons x xs ih =>
    intro a ha hl
    rw [List.foldl_cons]
    exact ih (op a x) (hop a x ha (hl x (List.mem_cons_self x xs)))
      (fun y hy => hl y (List.mem_cons_of_mem x hy))

theorem reduceOp_cases (a x : Nat × Int × Int) :
    reduceOp a x = a ∨ reduceOp a x = x := by
  unfold reduceOp
  split_ifs <;> simp

theorem search_par_ge : ∀ (fuel w b : Nat) (s : Bool) (depth : Nat)
    (alpha beta : Int) (od : Nat) (cfg : EvalCfg),
    IMIN ≤ (search_moves_par fuel w b s depth alpha beta od cfg).2 := by
  intro fuel
  induction fuel with
  | zero =>
    intros
    norm_num [search_moves_par, IMIN]
  | succ fuel ih =>
    intro w b s depth alpha beta od cfg
    simp only [search_moves_par]
    split_ifs with h1 h2 h3 h4 h5 h6 h7
    · norm_num [IMIN]
    · norm_num [IMIN]
    · norm_num [IMIN]
    · exact (wrap32_range _).1
    · exact (wrap32_range _).1
    · exact search_opt_ge fuel w b (!s) (depth - 1) alpha beta od cfg
    · exact search_opt_ge fuel w b (!s) depth alpha beta od cfg
    · show IMIN ≤ (((find_legal_moves_alt w b s).map _).foldl reduceOp
        reduceInit).2.2
      apply foldl_pred reduceOp (fun z => IMIN ≤ z.2.2)
      · intro a x ha hx
        rcases reduceOp_cases a x with h | h <;> rw [h] <;> assumption
      · norm_num [reduceInit]
      · intro x hx
        obtain ⟨c, _, hc⟩ := List.mem_map.mp hx
        subst hc
        unfold par_map_child
        cases rt_apply_move w b c s with
        | error e => norm_num [IMIN]
        | ok p =>
          obtain ⟨nw, nb⟩ := p
          simp only []
          have hso := search_opt_ge fuel nw nb (!s) (depth - 1) alpha beta
            od cfg
          have hsp := ih nw nb (!s) (depth - 1) alpha beta od cfg
          have hwc := (wrap32_range (eval_position_with_cfg nw nb cfg)).1
          have hw1 := wrap32_range
            ((search_moves_par fuel nw nb (!s) (depth - 1) alpha beta od
              cfg).2 - 1)
          have hw2 := wrap32_range
            ((search_moves_par fuel nw nb (!s) (depth - 1) alpha beta od
              cfg).2 + 1)
          unfold IMIN at *
          split_ifs <;> (simp only []; omega)

theorem odd_sub_testBit (m : Nat) (hm : m % 2 = 1) (j : Nat) :
    (m - 1).testBit (j + 1) = m.testBit (j + 1) := by
  rw [Nat.testBit_add_one, Nat.testBit_add_one]
  congr 1
  omega

theorem odd_and_two_pow_sub (m t : Nat) (hm : m % 2 = 1) (hlt : m < 2 ^ t) :
    m &&& (2 ^ t - m) = 1 := by
  have ht : 1 ≤ t := by
    by_contra hc
    interval_cases t
    omega
  have h2t : 2 ^ t % 2 = 0 := by
    obtain ⟨t', rfl⟩ : ∃ t', t = t' + 1 := ⟨t - 1, by omega⟩
    rw [pow_succ]
    exact Nat.mul_mod_left _ _
  apply Nat.eq_of_testBit_eq
  intro j
  cases j with
  | zero =>
    rw [Nat.testBit_and]
    have hm0 : m.testBit 0 = true := by
      rw [Nat.testBit_to_div_mod]
      simpa using hm
    have h20 : (2 ^ t - m).testBit 0 = true := by
      rw [Nat.testBit_to_div_mod]
      simp only [pow_zero, Nat.div_one]
      have : (2 ^ t - m) % 2 = 1 := by omega
      simpa using this
    rw [hm0, h20]
    decide
  | succ j =>
    rw [Nat.testBit_and]
    have hone : (1 : Nat).testBit (j + 1) = false := by
      apply Nat.testBit_lt_two_pow
      calc (1 : Nat) = 2 ^ 0 := rfl
        _ < 2 ^ (j + 1) := Nat.pow_lt_pow_right (by omega) (by omega)
    rw [hone]
    have hsub : 2 ^ t - m = 2 ^ t - ((m - 1) + 1) := by omega
    rw [hsub, Nat.testBit_two_pow_sub_succ (by omega), odd_sub_testBit m hm j]
    cases hb : m.testBit (j + 1) <;> simp

theorem and_mul_two_pow (k a b : Nat) :
    (2 ^ k * a) &&& (2 ^ k * b) = 2 ^ k * (a &&& b) := by
  apply Nat.eq_of_testBit_eq
  intro j
  rw [Nat.testBit_and, Nat.testBit_mul_pow_two, Nat.testBit_mul_pow_two,
    Nat.testBit_mul_pow_two, Nat.testBit_and]
  cases hd : decide (k ≤ j) <;> simp

theorem lowbit_spec (x : Nat) (h0 : 0 < x) (hx : x < 2 ^ 64) :
    ∃ k, k < 64 ∧ lowest_set_bit x = 2 ^ k ∧ x.testBit k = true := by
  obtain ⟨k, m, hodd, hxeq⟩ := Nat.exists_eq_two_pow_mul_odd
    (n := x) (by omega)
  have hm2 : m % 2 = 1 := Nat.odd_iff.mp hodd
  have hm1 : 1 ≤ m := by omega
  have hk64 : k < 64 := by
    by_contra hc
    have h1 : (2 : Nat) ^ 64 ≤ 2 ^ k := Nat.pow_le_pow_right (by omega)
      (by omega)
    have h2 : 2 ^ k ≤ 2 ^ k * m := Nat.le_mul_of_pos_right _ (by omega)
    omega
  have hmt : m < 2 ^ (64 - k) := by
    have hsplit : (2 : Nat) ^ 64 = 2 ^ k * 2 ^ (64 - k) := by
      rw [← pow_add]
      congr 1
      omega
    have hxlt : 2 ^ k * m < 2 ^ k * 2 ^ (64 - k) := by
      rw [← hsplit]
      omega
    exact Nat.lt_of_mul_lt_mul_left hxlt
  refine ⟨k, hk64, ?_, ?_⟩
  · unfold lowest_set_bit
    have hU : U64MOD = 2 ^ 64 := by decide
    have hwrap : (U64MOD - x) % U64MOD = 2 ^ k * (2 ^ (64 - k) - m) := by
      rw [Nat.mod_eq_of_lt (by rw [hU]; omega), hU, hxeq]
      have hsplit : (2 : Nat) ^ 64 = 2 ^ k * 2 ^ (64 - k) := by
        rw [← pow_add]
        congr 1
        omega
      rw [hsplit, ← Nat.mul_sub]
    rw [hwrap, hxeq, and_mul_two_pow,
      odd_and_two_pow_sub m (64 - k) hm2 hmt, Nat.mul_one]
  · rw [hxeq, Nat.testBit_mul_pow_two]
    have hbit0 : m.testBit 0 = true := by
      rw [Nat.testBit_to_div_mod]
      simpa using hm2
    simp [hbit0]

theorem bitsLoop_mem : ∀ (fuel tmp : Nat), tmp < 2 ^ 64 →
    ∀ c ∈ bitsLoop fuel tmp,
      ∃ k, k < 64 ∧ c = 2 ^ k ∧ tmp.testBit k = true := by
  intro fuel
  induction fuel with
  | zero =>
    intro tmp _ c hc
    simp [bitsLoop] at hc
  | succ fuel ih =>
    intro tmp htmp c hc
    by_cases h0 : tmp = 0
    · simp [bitsLoop, h0] at hc
    · rw [show bitsLoop (fuel + 1) tmp =
        lowest_set_bit tmp ::
          bitsLoop fuel (tmp &&& (U64MAX ^^^ lowest_set_bit tmp)) by
          simp [bitsLoop, h0]] at hc
      rcases List.mem_cons.mp hc with hc | hc
      · obtain ⟨k, hk, hlow, hbit⟩ := lowbit_spec tmp (by omega) htmp
        exact ⟨k, hk, by rw [hc, hlow], hbit⟩
      · have hlt : tmp &&& (U64MAX ^^^ lowest_set_bit tmp) < 2 ^ 64 :=
          lt_of_le_of_lt (Nat.and_le_left) htmp
        obtain ⟨k, hk, hck, hbit⟩ := ih _ hlt c hc
        refine ⟨k, hk, hck, ?_⟩
        rw [Nat.testBit_and] at hbit
        simp only [Bool.and_eq_true] at hbit
        exact hbit.1

theorem compute_moves_lt (me opp : Nat) (hme : me < 2 ^ 64)
    (hopp : opp < 2 ^ 64) : compute_moves me opp < 2 ^ 64 := by
  have hemp : U64MAX ^^^ (me ||| opp) < 2 ^ 64 :=
    Nat.xor_lt_two_pow (by decide) (Nat.or_lt_two_pow hme hopp)
  have hd : ∀ σ : Nat → Nat,
      dir_moves σ me opp (U64MAX ^^^ (me ||| opp)) < 2 ^ 64 :=
    fun σ => lt_of_le_of_lt Nat.and_le_right hemp
  simp only [compute_moves]
  exact Nat.or_lt_two_pow (Nat.or_lt_two_pow (Nat.or_lt_two_pow
    (Nat.or_lt_two_pow (Nat.or_lt_two_pow (Nat.or_lt_two_pow
      (Nat.or_lt_two_pow (hd _) (hd _)) (hd _)) (hd _)) (hd _)) (hd _))
    (hd _)) (hd _)

theorem candidates_spec (w b : Nat) (s : Bool) (hw : w < 2 ^ 64)
    (hb : b < 2 ^ 64) :
    ∀ c ∈ find_legal_moves_alt w b s,
      ∃ k, k < 64 ∧ c = 2 ^ k ∧
        (compute_moves (if s then w else b)
          (if s then b else w)).testBit k = true := by
  intro c hc
  have hme : (if s then w else b) < 2 ^ 64 := by cases s <;> simpa
  have hopp : (if s then b else w) < 2 ^ 64 := by cases s <;> simpa
  exact bitsLoop_mem 64 _ (compute_moves_lt _ _ hme hopp) c hc

theorem lin_shl_mask (F s u v : Nat) :
    (((u ||| v) &&& F) <<< s) % U64MOD =
      (((u &&& F) <<< s) % U64MOD) ||| (((v &&& F) <<< s) % U64MOD) := by
  have hU : U64MOD = 2 ^ 64 := by decide
  apply Nat.eq_of_testBit_eq
  intro j
  rw [hU]
  simp only [Nat.testBit_mod_two_pow, Nat.testBit_shiftLeft, Nat.testBit_and,
    Nat.testBit_or]
  cases hu : u.testBit (j - s) <;> cases hv : v.testBit (j - s) <;>
    cases hF : F.testBit (j - s) <;> simp

theorem lin_shr_mask (F s u v : Nat) :
    ((u ||| v) &&& F) >>> s = ((u &&& F) >>> s) ||| ((v &&& F) >>> s) := by
  apply Nat.eq_of_testBit_eq
  intro j
  simp only [Nat.testBit_shiftRight, Nat.testBit_and, Nat.testBit_or]
  cases hu : u.testBit (s + j) <;> cases hv : v.testBit (s + j) <;>
    cases hF : F.testBit (s + j) <;> simp [hu, hv, hF]

theorem lin_shl (s u v : Nat) :
    ((u ||| v) <<< s) % U64MOD =
      ((u <<< s) % U64MOD) ||| ((v <<< s) % U64MOD) := by
  have hU : U64MOD = 2 ^ 64 := by decide
  apply Nat.eq_of_testBit_eq
  intro j
  rw [hU]
  simp only [Nat.testBit_mod_two_pow, Nat.testBit_shiftLeft, Nat.testBit_or]
  cases hu : u.testBit (j - s) <;> cases hv : v.testBit (j - s) <;> simp

theorem lin_shr (s u v : Nat) :
    (u ||| v) >>> s = (u >>> s) ||| (v >>> s) := by
  apply Nat.eq_of_testBit_eq
  intro j
  simp [Nat.testBit_shiftRight, Nat.testBit_or]

theorem shift_north_or (u v : Nat) :
    shift_north (u ||| v) = shift_north u ||| shift_north v := lin_shl 8 u v

theorem shift_south_or (u v : Nat) :
    shift_south (u ||| v) = shift_south u ||| shift_south v := lin_shr 8 u v

theorem shift_east_or (u v : Nat) :
    shift_east (u ||| v) = shift_east u ||| shift_east v :=
  lin_shl_mask NOT_H_FILE 1 u v

theorem shift_west_or (u v : Nat) :
    shift_west (u ||| v) = shift_west u ||| shift_west v :=
  lin_shr_mask NOT_A_FILE 1 u v

theorem shift_ne_or (u v : Nat) :
    shift_ne (u ||| v) = shift_ne u ||| shift_ne v :=
  lin_shl_mask NOT_H_FILE 9 u v

theorem shift_nw_or (u v : Nat) :
    shift_nw (u ||| v) = shift_nw u ||| shift_nw v :=
  lin_shl_mask NOT_A_FILE 7 u v

theorem shift_se_or (u v : Nat) :
    shift_se (u ||| v) = shift_se u ||| shift_se v :=
  lin_shr_mask NOT_H_FILE 7 u v

theorem shift_sw_or (u v : Nat) :
    shift_sw (u ||| v) = shift_sw u ||| shift_sw v :=
  lin_shr_mask NOT_A_FILE 9 u v

theorem shift_or_rev (σ : Nat → Nat) (hσ0 : σ 0 = 0)
    (hlin : ∀ u v, σ (u ||| v) = σ u ||| σ v) :
    ∀ (n a q : Nat), a < 2 ^ n → (σ a).testBit q = true →
      ∃ k, k < n ∧ a.testBit k = true ∧ (σ (2 ^ k)).testBit q = true := by
  intro n
  induction n with
  | zero =>
    intro a q ha hq
    have ha0 : a = 0 := by omega
    rw [ha0, hσ0] at hq
    simp at hq
  | succ n ih =>
    intro a q ha hq
    by_cases hbit : a.testBit n = true
    · have hdecomp : a = 2 ^ n ||| (a % 2 ^ n) := by
        apply Nat.eq_of_testBit_eq
        intro j
        rw [Nat.testBit_or, Nat.testBit_two_pow, Nat.testBit_mod_two_pow]
        by_cases hj : j < n
        · simp [hj, Nat.ne_of_gt hj]
        · by_cases hjn : j = n
          · subst hjn
            simp [hbit]
          · have hja : a.testBit j = false := by
              apply Nat.testBit_lt_two_pow
              calc a < 2 ^ (n + 1) := ha
                _ ≤ 2 ^ j := Nat.pow_le_pow_right (by omega) (by omega)
            simp [hj, hjn, hja, Ne.symm hjn]
      rw [hdecomp, hlin, Nat.testBit_or] at hq
      rcases Bool.or_eq_true_iff.mp hq with hq | hq
      · exact ⟨n, by omega, hbit, hq⟩
      · obtain ⟨k, hk, hak, hsk⟩ := ih (a % 2 ^ n) q
          (Nat.mod_lt _ (by positivity)) hq
        rw [Nat.testBit_mod_two_pow] at hak
        simp only [Bool.and_eq_true, decide_eq_true_eq] at hak
        exact ⟨k, by omega, hak.2, hsk⟩
    · have ha' : a < 2 ^ n := by
        by_contra hc
        push_neg at hc
        have hdiv : a / 2 ^ n = 1 := by
          apply Nat.div_eq_of_lt_le
          · simpa using hc
          · calc a < 2 ^ (n + 1) := ha
              _ = Nat.succ 1 * 2 ^ n := by rw [pow_succ]; ring
        have : a.testBit n = true := by
          rw [Nat.testBit_to_div_mod, hdiv]
          decide
        exact hbit this
      obtain ⟨k, hk, hak, hsk⟩ := ih a q ha' hq
      exact ⟨k, by omega, hak, hsk⟩

theorem posIdx_inj {x y x' y' : Int} (h : inB x y) (h' : inB x' y')
    (he : posIdx x y = posIdx x' y') : x = x' ∧ y = y' := by
  simp only [posIdx, inB] at *
  omega

theorem RunS_mono (me opp : Nat) (ddx ddy : Int) :
    ∀ (j j' : Nat) (x y : Int), j ≤ j' →
      RunS me opp ddx ddy j x y → RunS me opp ddx ddy j' x y := by
  intro j
  induction j with
  | zero =>
    intro j' x y _ hr
    exact absurd hr (by simp [RunS])
  | succ j ih =>
    intro j' x y hle hr
    obtain ⟨j'', rfl⟩ : ∃ j'', j' = j'' + 1 := ⟨j' - 1, by omega⟩
    simp only [RunS] at hr ⊢
    obtain ⟨h1, h2, h3, h4⟩ := hr
    refine ⟨h1, h2, h3, ?_⟩
    rcases h4 with h4 | h4
    · exact Or.inl h4
    · exact Or.inr (ih j'' _ _ (by omega) h4)

theorem chainMask_lt (σ : Nat → Nat) (me opp : Nat) (hopp : opp < 2 ^ 64) :
    ∀ i, chainMask σ me opp i < 2 ^ 64 := by
  intro i
  induction i with
  | zero => exact lt_of_le_of_lt Nat.and_le_right hopp
  | succ i ih =>
    exact Nat.or_lt_two_pow ih (lt_of_le_of_lt Nat.and_le_right hopp)

theorem chainMask_run (σ : Nat → Nat) (dx dy : Int)
    (hσ0 : σ 0 = 0) (hlin : ∀ u v, σ (u ||| v) = σ u ||| σ v)
    (hL1 : ∀ x y : Int, 0 ≤ x → x < 8 → 0 ≤ y → y < 8 →
      σ (2 ^ posIdx x y) =
        (if inB (x + dx) (y + dy) then 2 ^ posIdx (x + dx) (y + dy) else 0))
    (me opp : Nat) (hme : me < 2 ^ 64) (hopp : opp < 2 ^ 64) :
    ∀ (i p : Nat), (chainMask σ me opp i).testBit p = true →
      ∃ x y : Int, inB x y ∧ p = posIdx x y ∧
        RunS me opp (-dx) (-dy) (i + 1) x y := by
  intro i
  induction i with
  | zero =>
    intro p hp
    simp only [chainMask, Nat.testBit_and, Bool.and_eq_true] at hp
    obtain ⟨hσp, hop⟩ := hp
    obtain ⟨k, hk64, hmk, hsk⟩ := shift_or_rev σ hσ0 hlin 64 me p hme hσp
    set x0 : Int := ((k % 8 : Nat) : Int) with hx0
    set y0 : Int := ((k / 8 : Nat) : Int) with hy0
    have hin0 : inB x0 y0 := by simp only [inB, hx0, hy0]; omega
    have hke : k = posIdx x0 y0 := by simp only [posIdx, hx0, hy0]; omega
    rw [hke] at hsk
    rw [hL1 x0 y0 hin0.1 hin0.2.1 hin0.2.2.1 hin0.2.2.2] at hsk
    by_cases hin : inB (x0 + dx) (y0 + dy)
    · rw [if_pos hin, Nat.testBit_two_pow] at hsk
      have hpe : p = posIdx (x0 + dx) (y0 + dy) :=
        (of_decide_eq_true hsk).symm
      refine ⟨x0 + dx, y0 + dy, hin, hpe, ?_⟩
      simp only [RunS]
      have hxx : x0 + dx + -dx = x0 := by ring
      have hyy : y0 + dy + -dy = y0 := by ring
      rw [hxx, hyy]
      exact ⟨hin, by rw [← hpe]; exact hop, hin0,
        Or.inl (by rw [← hke]; exact hmk)⟩
    · rw [if_neg hin] at hsk
      simp [Nat.zero_testBit] at hsk
  | succ i ih =>
    intro p hp
    rw [show chainMask σ me opp (i + 1) =
      chainMask σ me opp i |||
        (σ (chainMask σ me opp i) &&& opp) from rfl, Nat.testBit_or] at hp
    rcases Bool.or_eq_true_iff.mp hp with hp | hp
    · obtain ⟨x, y, hin, hpe, hrun⟩ := ih p hp
      exact ⟨x, y, hin, hpe, RunS_mono me opp (-dx) (-dy) (i + 1) (i + 2)
        x y (by omega) hrun⟩
    · rw [Nat.testBit_and, Bool.and_eq_true] at hp
      obtain ⟨hσp, hop⟩ := hp
      obtain ⟨k, hk64, hck, hsk⟩ := shift_or_rev σ hσ0 hlin 64
        (chainMask σ me opp i) p (chainMask_lt σ me opp hopp i) hσp
      obtain ⟨x0, y0, hin0, hke, hrun0⟩ := ih k hck
      rw [hke] at hsk
      rw [hL1 x0 y0 hin0.1 hin0.2.1 hin0.2.2.1 hin0.2.2.2] at hsk
      by_cases hin : inB (x0 + dx) (y0 + dy)
      · rw [if_pos hin, Nat.testBit_two_pow] at hsk
        have hpe : p = posIdx (x0 + dx) (y0 + dy) :=
          (of_decide_eq_true hsk).symm
        refine ⟨x0 + dx, y0 + dy, hin, hpe, ?_⟩
        simp only [RunS]
        have hxx : x0 + dx + -dx = x0 := by ring
        have hyy : y0 + dy + -dy = y0 := by ring
        rw [hxx, hyy]
        exact ⟨hin, by rw [← hpe]; exact hop, hin0, Or.inr hrun0⟩
      · rw [if_neg hin] at hsk
        simp [Nat.zero_testBit] at hsk

theorem disj_bit {me opp : Nat} (hdisj : me &&& opp = 0) {t : Nat}
    (hme : me.testBit t = true) : opp.testBit t = false := by
  have h := congrArg (fun z => Nat.testBit z t) hdisj
  simp only [Nat.testBit_and, Nat.zero_testBit, hme, Bool.true_and] at h
  exact h

theorem run_rayFlips (me opp : Nat) (hdisj : me &&& opp = 0) (ddx ddy : Int) :
    ∀ (j : Nat) (x y : Int) (acc n : Nat), RunS me opp ddx ddy j x y →
      j + 1 ≤ n → rayFlips me opp (rayFrom ddx ddy n x y) acc ≠ 0 := by
  intro j
  induction j with
  | zero =>
    intro x y acc n hr _
    exact absurd hr (by simp [RunS])
  | succ j ih =>
    intro x y acc n hr hn
    obtain ⟨n', rfl⟩ : ∃ n', n = n' + 1 := ⟨n - 1, by omega⟩
    simp only [RunS] at hr
    obtain ⟨hin, hop, hin2, hnext⟩ := hr
    rw [rayFrom_cons ddx ddy n' x y hin]
    simp only [rayFlips]
    rw [if_pos hop]
    rcases hnext with hme | hrun
    · obtain ⟨n'', rfl⟩ : ∃ n'', n' = n'' + 1 := ⟨n' - 1, by omega⟩
      rw [rayFrom_cons ddx ddy n'' _ _ hin2]
      simp only [rayFlips]
      have hopf : opp.testBit (posIdx (x + ddx) (y + ddy)) = false :=
        disj_bit hdisj hme
      rw [if_neg (by simp [hopf]), if_pos hme]
      intro hc
      exact absurd (or_eq_zero hc).2 (by positivity)
    · exact ih _ _ (acc ||| 2 ^ posIdx x y) n' hrun (by omega)

theorem dirMoves_chain (σ : Nat → Nat) (me opp e : Nat) :
    dir_moves σ me opp e = σ (chainMask σ me opp 5) &&& e := rfl

theorem or8_eq_zero {a1 a2 a3 a4 a5 a6 a7 a8 : Nat}
    (h : a1 ||| a2 ||| a3 ||| a4 ||| a5 ||| a6 ||| a7 ||| a8 = 0) :
    a1 = 0 ∧ a2 = 0 ∧ a3 = 0 ∧ a4 = 0 ∧ a5 = 0 ∧ a6 = 0 ∧ a7 = 0 ∧
      a8 = 0 := by
  obtain ⟨h7, z8⟩ := or_eq_zero h
  obtain ⟨h6, z7⟩ := or_eq_zero h7
  obtain ⟨h5, z6⟩ := or_eq_zero h6
  obtain ⟨h4, z5⟩ := or_eq_zero h5
  obtain ⟨h3, z4⟩ := or_eq_zero h4
  obtain ⟨h2, z3⟩ := or_eq_zero h3
  obtain ⟨z1, z2⟩ := or_eq_zero h2
  exact ⟨z1, z2, z3, z4, z5, z6, z7, z8⟩

theorem dir_flip_ne (σ σ' : Nat → Nat) (dx dy : Int)
    (hσ0 : σ 0 = 0) (hlin : ∀ u v, σ (u ||| v) = σ u ||| σ v)
    (hL1 : ∀ x y : Int, 0 ≤ x → x < 8 → 0 ≤ y → y < 8 →
      σ (2 ^ posIdx x y) =
        (if inB (x + dx) (y + dy) then 2 ^ posIdx (x + dx) (y + dy) else 0))
    (hL1r : ∀ x y : Int, 0 ≤ x → x < 8 → 0 ≤ y → y < 8 →
      σ' (2 ^ posIdx x y) =
        (if inB (x + -dx) (y + -dy) then 2 ^ posIdx (x + -dx) (y + -dy)
         else 0))
    (me opp : Nat) (hme : me < 2 ^ 64) (hopp : opp < 2 ^ 64)
    (hdisj : me &&& opp = 0) (k : Nat) (hk : k < 64)
    (hbit : (σ (chainMask σ me opp 5)).testBit k = true) :
    flip_in_dir (2 ^ k) me opp σ' ≠ 0 := by
  obtain ⟨j, hj64, hcj, hsk⟩ := shift_or_rev σ hσ0 hlin 64
    (chainMask σ me opp 5) k (chainMask_lt σ me opp hopp 5) hbit
  obtain ⟨x0, y0, hin0, hje, hrun⟩ := chainMask_run σ dx dy hσ0 hlin hL1
    me opp hme hopp 5 j hcj
  rw [hje] at hsk
  rw [hL1 x0 y0 hin0.1 hin0.2.1 hin0.2.2.1 hin0.2.2.2] at hsk
  by_cases hin : inB (x0 + dx) (y0 + dy)
  · rw [if_pos hin, Nat.testBit_two_pow] at hsk
    have hke : k = posIdx (x0 + dx) (y0 + dy) :=
      (of_decide_eq_true hsk).symm
    rw [flip_in_dir_ray σ' (-dx) (-dy) hL1r me opp k hk]
    have hxs : ((k % 8 : Nat) : Int) + -dx = x0 := by
      simp only [posIdx] at hke
      obtain ⟨g1, g2, g3, g4⟩ := hin
      omega
    have hys : ((k / 8 : Nat) : Int) + -dy = y0 := by
      simp only [posIdx] at hke
      obtain ⟨g1, g2, g3, g4⟩ := hin
      omega
    rw [hxs, hys]
    exact run_rayFlips me opp hdisj (-dx) (-dy) 6 x0 y0 0 64 hrun (by omega)
  · rw [if_neg hin] at hsk
    simp at hsk

theorem legal_flip_ne (me opp : Nat) (hme : me < 2 ^ 64)
    (hopp : opp < 2 ^ 64) (hdisj : me &&& opp = 0) (k : Nat) (hk : k < 64)
    (hbit : (compute_moves me opp).testBit k = true) :
    (me ||| opp).testBit k = false ∧ flip_mask_opt (2 ^ k) me opp ≠ 0 := by
  simp only [compute_moves] at hbit
  simp only [Nat.testBit_or, Bool.or_eq_true] at hbit
  have hblock : ∀ σ : Nat → Nat,
      (dir_moves σ me opp (U64MAX ^^^ (me ||| opp))).testBit k = true →
      (σ (chainMask σ me opp 5)).testBit k = true ∧
        (me ||| opp).testBit k = false := by
    intro σ hd
    rw [dirMoves_chain, Nat.testBit_and, Bool.and_eq_true] at hd
    obtain ⟨h1, h2⟩ := hd
    refine ⟨h1, ?_⟩
    rw [Nat.testBit_xor, U64MAX_testBit] at h2
    cases hz : (me ||| opp).testBit k
    · rfl
    · exfalso
      rw [hz] at h2
      simp [hk] at h2
  rcases hbit with ((((((hd | hd) | hd) | hd) | hd) | hd) | hd) | hd
  · obtain ⟨h1, hocc⟩ := hblock shift_north hd
    refine ⟨hocc, fun h0 => ?_⟩
    simp only [flip_mask_opt] at h0
    obtain ⟨z1, z2, z3, z4, z5, z6, z7, z8⟩ := or8_eq_zero h0
    exact dir_flip_ne shift_north shift_south 0 1 (by decide) shift_north_or
      L1_north
      (fun x y g1 g2 g3 g4 => by simpa using L1_south x y g1 g2 g3 g4)
      me opp hme hopp hdisj k hk h1 z2
  · obtain ⟨h1, hocc⟩ := hblock shift_south hd
    refine ⟨hocc, fun h0 => ?_⟩
    simp only [flip_mask_opt] at h0
    obtain ⟨z1, z2, z3, z4, z5, z6, z7, z8⟩ := or8_eq_zero h0
    exact dir_flip_ne shift_south shift_north 0 (-1) (by decide)
      shift_south_or L1_south
      (fun x y g1 g2 g3 g4 => by simpa using L1_north x y g1 g2 g3 g4)
      me opp hme hopp hdisj k hk h1 z1
  · obtain ⟨h1, hocc⟩ := hblock shift_east hd
    refine ⟨hocc, fun h0 => ?_⟩
    simp only [flip_mask_opt] at h0
    obtain ⟨z1, z2, z3, z4, z5, z6, z7, z8⟩ := or8_eq_zero h0
    exact dir_flip_ne shift_east shift_west 1 0 (by decide) shift_east_or
      L1_east
      (fun x y g1 g2 g3 g4 => by simpa using L1_west x y g1 g2 g3 g4)
      me opp hme hopp hdisj k hk h1 z4
  · obtain ⟨h1, hocc⟩ := hblock shift_west hd
    refine ⟨hocc, fun h0 => ?_⟩
    simp only [flip_mask_opt] at h0
    obtain ⟨z1, z2, z3, z4, z5, z6, z7, z8⟩ := or8_eq_zero h0
    exact dir_flip_ne shift_west shift_east (-1) 0 (by decide) shift_west_or
      L1_west
      (fun x y g1 g2 g3 g4 => by simpa using L1_east x y g1 g2 g3 g4)
      me opp hme hopp hdisj k hk h1 z3
  · obtain ⟨h1, hocc⟩ := hblock shift_ne hd
    refine ⟨hocc, fun h0 => ?_⟩
    simp only [flip_mask_opt] at h0
    obtain ⟨z1, z2, z3, z4, z5, z6, z7, z8⟩ := or8_eq_zero h0
    exact dir_flip_ne shift_ne shift_sw 1 1 (by decide) shift_ne_or
      L1_ne
      (fun x y g1 g2 g3 g4 => by simpa using L1_sw x y g1 g2 g3 g4)
      me opp hme hopp hdisj k hk h1 z8
  · obtain ⟨h1, hocc⟩ := hblock shift_nw hd
    refine ⟨hocc, fun h0 => ?_⟩
    simp only [flip_mask_opt] at h0
    obtain ⟨z1, z2, z3, z4, z5, z6, z7, z8⟩ := or8_eq_zero h0
    exact dir_flip_ne shift_nw shift_se (-1) 1 (by decide) shift_nw_or
      L1_nw
      (fun x y g1 g2 g3 g4 => by simpa using L1_se x y g1 g2 g3 g4)
      me opp hme hopp hdisj k hk h1 z7
  · obtain ⟨h1, hocc⟩ := hblock shift_se hd
    refine ⟨hocc, fun h0 => ?_⟩
    simp only [flip_mask_opt] at h0
    obtain ⟨z1, z2, z3, z4, z5, z6, z7, z8⟩ := or8_eq_zero h0
    exact dir_flip_ne shift_se shift_nw 1 (-1) (by decide) shift_se_or
      L1_se
      (fun x y g1 g2 g3 g4 => by simpa using L1_nw x y g1 g2 g3 g4)
      me opp hme hopp hdisj k hk h1 z6
  · obtain ⟨h1, hocc⟩ := hblock shift_sw hd
    refine ⟨hocc, fun h0 => ?_⟩
    simp only [flip_mask_opt] at h0
    obtain ⟨z1, z2, z3, z4, z5, z6, z7, z8⟩ := or8_eq_zero h0
    exact dir_flip_ne shift_sw shift_ne (-1) (-1) (by decide) shift_sw_or
      L1_sw
      (fun x y g1 g2 g3 g4 => by simpa using L1_ne x y g1 g2 g3 g4)
      me opp hme hopp hdisj k hk h1 z5

theorem legal_apply_ok (w b : Nat) (s : Bool) (hw : w < 2 ^ 64)
    (hb : b < 2 ^ 64) (hdisj : w &&& b = 0) (c : Nat)
    (hc : c ∈ find_legal_moves_alt w b s) :
    ∃ pr, rt_apply_move w b c s = Except.ok pr := by
  obtain ⟨k, hk64, rfl, hbit⟩ := candidates_spec w b s hw hb c hc
  cases s
  · have hbit' : (compute_moves b w).testBit k = true := by simpa using hbit
    obtain ⟨hocc, hflip⟩ := legal_flip_ne b w hb hw
      (by rw [Nat.and_comm] at hdisj; exact hdisj) k hk64 hbit'
    have h1 : 2 ^ k &&& (w ||| b) = 0 := by
      rw [two_pow_and, Nat.or_comm]
      simp [hocc]
    have happ : apply_move_opt w b (2 ^ k) false =
        if flip_mask_opt (2 ^ k) b w = 0 then Except.error MoveError.NoFlips
        else Except.ok (w &&& (U64MAX ^^^ flip_mask_opt (2 ^ k) b w),
          b ||| 2 ^ k ||| flip_mask_opt (2 ^ k) b w) := by
      unfold apply_move_opt
      rw [if_neg (show ¬(2 ^ k &&& (w ||| b) ≠ 0) from fun hcon => hcon h1)]
      rfl
    refine ⟨(w &&& (U64MAX ^^^ flip_mask_opt (2 ^ k) b w),
      b ||| 2 ^ k ||| flip_mask_opt (2 ^ k) b w), ?_⟩
    unfold rt_apply_move
    rw [happ, if_neg hflip]
  · have hbit' : (compute_moves w b).testBit k = true := by simpa using hbit
    obtain ⟨hocc, hflip⟩ := legal_flip_ne w b hw hb hdisj k hk64 hbit'
    have h1 : 2 ^ k &&& (w ||| b) = 0 := by
      rw [two_pow_and]
      simp [hocc]
    have happ : apply_move_opt w b (2 ^ k) true =
        if flip_mask_opt (2 ^ k) w b = 0 then Except.error MoveError.NoFlips
        else Except.ok (w ||| 2 ^ k ||| flip_mask_opt (2 ^ k) w b,
          b &&& (U64MAX ^^^ flip_mask_opt (2 ^ k) w b)) := by
      unfold apply_move_opt
      rw [if_neg (show ¬(2 ^ k &&& (w ||| b) ≠ 0) from fun hcon => hcon h1)]
      rfl
    refine ⟨(w ||| 2 ^ k ||| flip_mask_opt (2 ^ k) w b,
      b &&& (U64MAX ^^^ flip_mask_opt (2 ^ k) w b)), ?_⟩
    unfold rt_apply_move
    rw [happ, if_neg hflip]

theorem rootMapped_good (fuel w b : Nat) (s : Bool) (depth : Nat)
    (alpha beta : Int) (od : Nat) (cfg : EvalCfg)
    (hw : w < 2 ^ 64) (hb : b < 2 ^ 64) (hdisj : w &&& b = 0) :
    ∀ x ∈ rootMapped fuel w b s depth alpha beta od cfg, goodElem x := by
  intro x hx
  unfold rootMapped at hx
  obtain ⟨c, hcmem, rfl⟩ := List.mem_map.mp hx
  obtain ⟨pr, hpr⟩ := legal_apply_ok w b s hw hb hdisj c hcmem
  obtain ⟨k, hk64, hck, _⟩ := candidates_spec w b s hw hb c hcmem
  have hshape : ∃ ev ov : Int,
      par_map_child
        (fun w2 b2 s2 d2 la lb =>
          search_moves_opt fuel w2 b2 s2 d2 la lb od cfg)
        (fun w2 b2 s2 d2 la lb =>
          search_moves_par fuel w2 b2 s2 d2 la lb od cfg)
        w b s depth alpha beta od cfg c = (c, ev, ov) ∧ IMIN ≤ ev := by
    unfold par_map_child
    rw [hpr]
    obtain ⟨nw, nb⟩ := pr
    simp only []
    have hso := search_opt_ge fuel nw nb (!s) (depth - 1) alpha beta od cfg
    have hsp := search_par_ge fuel nw nb (!s) (depth - 1) alpha beta od cfg
    have hep : (-2147483648 : Int) ≤ eval_position_with_cfg nw nb cfg :=
      (wrap32_range _).1
    have hn1 := wrap32_range (-eval_position_with_cfg nw nb cfg)
    have hn2 := wrap32_range
      (-(search_moves_opt fuel nw nb (!s) (depth - 1) alpha beta od cfg).2)
    have hw1 := wrap32_range
      ((search_moves_par fuel nw nb (!s) (depth - 1) alpha beta od cfg).2 - 1)
    have hw2 := wrap32_range
      ((search_moves_par fuel nw nb (!s) (depth - 1) alpha beta od cfg).2 + 1)
    have hq1 := wrap32_range
      (-wrap32 ((search_moves_par fuel nw nb (!s) (depth - 1) alpha beta od
        cfg).2 - 1))
    have hq2 := wrap32_range
      (-wrap32 ((search_moves_par fuel nw nb (!s) (depth - 1) alpha beta od
        cfg).2 + 1))
    have hq3 := wrap32_range
      (-(search_moves_par fuel nw nb (!s) (depth - 1) alpha beta od cfg).2)
    unfold IMIN at *
    split_ifs <;> exact ⟨_, _, rfl, by omega⟩
  obtain ⟨ev, ov, hxeq, hev⟩ := hshape
  rw [hxeq]
  constructor
  · exact hev
  · intro h1
    exfalso
    rw [hck] at h1
    exact absurd h1 (by positivity)

theorem good_init : goodElem reduceInit := ⟨le_refl _, fun _ => rfl⟩

theorem reduceOp_good (a x : Nat × Int × Int) (ha : goodElem a)
    (hx : goodElem x) : goodElem (reduceOp a x) := by
  rcases reduceOp_cases a x with h | h <;> rw [h] <;> assumption

theorem reduceOp_init_right (a : Nat × Int × Int) :
    reduceOp a reduceInit = a := by
  unfold reduceOp reduceInit
  simp

theorem reduceOp_keep (a x : Nat × Int × Int)
    (h : x.2.1 > a.2.1 ∧ x.1 ≠ 0) : reduceOp a x = x := by
  unfold reduceOp
  rw [if_pos h]

theorem reduceOp_drop (a x : Nat × Int × Int)
    (h : ¬(x.2.1 > a.2.1 ∧ x.1 ≠ 0)) : reduceOp a x = a := by
  unfold reduceOp
  rw [if_neg h]

theorem reduceOp_skip (a x : Nat × Int × Int) (ha : goodElem a)
    (hcx : ¬(reduceInit.2.1 < x.2.1 ∧ x.1 ≠ 0)) : reduceOp a x = a := by
  unfold reduceOp
  rw [if_neg ?hneg]
  case hneg =>
    rintro ⟨h1, h2⟩
    exact hcx ⟨lt_of_le_of_lt ha.1 h1, h2⟩

theorem reduceOp_assoc_good (a b c : Nat × Int × Int) (ha : goodElem a)
    (hb : goodElem b) (_hc : goodElem c) :
    reduceOp (reduceOp a b) c = reduceOp a (reduceOp b c) := by
  by_cases hbc : c.2.1 > b.2.1 ∧ c.1 ≠ 0
  · have hfbc : reduceOp b c = c := by unfold reduceOp; rw [if_pos hbc]
    rw [hfbc]
    by_cases hab : b.2.1 > a.2.1 ∧ b.1 ≠ 0
    · have hfab : reduceOp a b = b := by unfold reduceOp; rw [if_pos hab]
      rw [hfab, hfbc]
      have hac : c.2.1 > a.2.1 ∧ c.1 ≠ 0 := ⟨lt_trans hab.1 hbc.1, hbc.2⟩
      unfold reduceOp
      rw [if_pos hac]
    · have hfab : reduceOp a b = a := by unfold reduceOp; rw [if_neg hab]
      rw [hfab]
  · have hfbc : reduceOp b c = b := by unfold reduceOp; rw [if_neg hbc]
    rw [hfbc]
    by_cases hab : b.2.1 > a.2.1 ∧ b.1 ≠ 0
    · have hfab : reduceOp a b = b := by unfold reduceOp; rw [if_pos hab]
      rw [hfab]
      exact hfbc
    · have hfab : reduceOp a b = a := by unfold reduceOp; rw [if_neg hab]
      rw [hfab]
      unfold reduceOp
      rw [if_neg ?hneg2]
      case hneg2 =>
        rintro ⟨h1, h2⟩
        push_neg at hbc hab
        have hcb : c.2.1 ≤ b.2.1 := by
          by_contra hgt
          exact h2 (hbc (by omega))
        by_cases hb0 : b.1 = 0
        · have hbi := hb.2 hb0
          rw [hbi] at hcb
          have hia : reduceInit.2.1 ≤ a.2.1 := ha.1
          simp only [reduceInit] at hcb hia
          omega
        · have hba : b.2.1 ≤ a.2.1 := by
            by_contra hgt
            exact hb0 (hab (by omega))
          omega

theorem foldl_good (l : List (Nat × Int × Int)) (a : Nat × Int × Int)
    (ha : goodElem a) (hl : ∀ x ∈ l, goodElem x) :
    goodElem (l.foldl reduceOp a) :=
  foldl_pred reduceOp goodElem reduceOp_good l a ha hl

theorem foldl_from_acc : ∀ (l : List (Nat × Int × Int))
    (a : Nat × Int × Int), goodElem a → (∀ x ∈ l, goodElem x) →
    l.foldl reduceOp a = reduceOp a (l.foldl reduceOp reduceInit) := by
  intro l
  induction l with
  | nil =>
    intro a ha _
    rw [List.foldl_nil, List.foldl_nil, reduceOp_init_right]
  | cons x xs ih =>
    intro a ha hl
    have hx : goodElem x := hl x (List.mem_cons_self x xs)
    have hxs : ∀ z ∈ xs, goodElem z :=
      fun z hz => hl z (List.mem_cons_of_mem x hz)
    have hP : goodElem (xs.foldl reduceOp reduceInit) :=
      foldl_good xs reduceInit good_init hxs
    rw [List.foldl_cons, List.foldl_cons]
    rw [ih (reduceOp a x) (reduceOp_good a x ha hx) hxs]
    rw [ih (reduceOp reduceInit x) (reduceOp_good reduceInit x good_init hx)
      hxs]
    by_cases hq : x.2.1 > reduceInit.2.1 ∧ x.1 ≠ 0
    · have h1 : reduceOp reduceInit x = x := by
        unfold reduceOp
        rw [if_pos hq]
      rw [h1, reduceOp_assoc_good a x _ ha hx hP]
    · have h1 : reduceOp reduceInit x = reduceInit := by
        unfold reduceOp
        rw [if_neg hq]
      have h2 : reduceOp a x = a := reduceOp_skip a x ha hq
      rw [h1, h2]
      by_cases hp : (xs.foldl reduceOp reduceInit).2.1 > reduceInit.2.1 ∧
          (xs.foldl reduceOp reduceInit).1 ≠ 0
      · rw [reduceOp_keep reduceInit _ hp]
      · rw [reduceOp_drop reduceInit _ hp, reduceOp_init_right]
        exact reduceOp_skip a _ ha hp

theorem treeEval_flatten (t : RTree (Nat × Int × Int)) :
    (∀ x ∈ t.flatten, goodElem x) →
      t.evalTree reduceOp reduceInit =
        t.flatten.foldl reduceOp reduceInit := by
  induction t with
  | leaf l =>
    intro _
    rfl
  | node t1 t2 ih1 ih2 =>
    intro hgood
    simp only [RTree.evalTree, RTree.flatten]
    have hg1 : ∀ x ∈ t1.flatten, goodElem x := fun x hx =>
      hgood x (by simp only [RTree.flatten]; exact List.mem_append_left _ hx)
    have hg2 : ∀ x ∈ t2.flatten, goodElem x := fun x hx =>
      hgood x (by simp only [RTree.flatten]; exact List.mem_append_right _ hx)
    rw [ih1 hg1, ih2 hg2, List.foldl_append]
    exact (foldl_from_acc t2.flatten (t1.flatten.foldl reduceOp reduceInit)
      (foldl_good t1.flatten reduceInit good_init hg1) hg2).symm

/-- C9.  The root-parallel search is reduction-order independent: for a
valid position (boards below `2 ^ 64` and disjoint), every rayon work
split of the root map-reduce — any tree of contiguous chunks over the
mapped candidate list — evaluates to the very same triple as the
sequential left-to-right fold seeded with the reduce identity (which
keeps the maximum by sign-normalised eval, ties broken by the
first-seen candidate); and on a non-terminal, non-pass node with
positive depth the engine's parallel search returns exactly the
`(move, eval)` projection of that fold. -/
theorem c9_par_reduce_deterministic (fuel w b : Nat) (s : Bool)
    (depth : Nat) (alpha beta : Int) (od : Nat) (cfg : EvalCfg)
    (t : RTree (Nat × Int × Int)) (hw : w < 2 ^ 64) (hb : b < 2 ^ 64)
    (hdisj : w &&& b = 0)
    (hflat : t.flatten = rootMapped fuel w b s depth alpha beta od cfg) :
    t.evalTree reduceOp reduceInit =
      (rootMapped fuel w b s depth alpha beta od cfg).foldl reduceOp
        reduceInit ∧
    (check_game_status w b s ≠ U64MAX - 2 →
     check_game_status w b s ≠ U64MAX - 1 →
     check_game_status w b s ≠ U64MAX - 3 →
     depth ≠ 0 →
     ¬((find_legal_moves_alt w b s).length = 0 ∧
        check_game_status w b s = U64MAX) →
     search_moves_par (fuel + 1) w b s depth alpha beta od cfg =
       (((rootMapped fuel w b s depth alpha beta od cfg).foldl reduceOp
           reduceInit).1,
        ((rootMapped fuel w b s depth alpha beta od cfg).foldl reduceOp
           reduceInit).2.2)) := by
  constructor
  · have hgood : ∀ x ∈ t.flatten, goodElem x := by
      rw [hflat]
      exact rootMapped_good fuel w b s depth alpha beta od cfg hw hb hdisj
    rw [treeEval_flatten t hgood, hflat]
  · intro h1 h2 h3 h4 h5
    simp only [search_moves_par]
    rw [if_neg h1, if_neg h2, if_neg h3, if_neg h4, if_neg h5]
    rfl

/-- C9 witness: at the standard starting position (black to move,
depth 1), the two-chunk work split of the root reduction evaluates to
the sequential fold of the mapped candidate list. -/
theorem c9_witness :
    (RTree.node
      (RTree.leaf ((rootMapped 1 0x0000001008000000 0x0000000810000000
        false 1 (-2147483648) 2147483647 1 DEFAULT_CFG).take 2))
      (RTree.leaf ((rootMapped 1 0x0000001008000000 0x0000000810000000
        false 1 (-2147483648) 2147483647 1 DEFAULT_CFG).drop 2))).evalTree
      reduceOp reduceInit =
    (rootMapped 1 0x0000001008000000 0x0000000810000000 false 1
      (-2147483648) 2147483647 1 DEFAULT_CFG).foldl reduceOp reduceInit :=
  (c9_par_reduce_deterministic 1 0x0000001008000000 0x0000000810000000
    false 1 (-2147483648) 2147483647 1 DEFAULT_CFG _ (by decide) (by decide)
    (by decide)
    (by simp only [RTree.flatten]; exact List.take_append_drop 2 _)).1

end Reversi
